import Mathlib

/-!
# Verification of the `buoyancy` crate: splay-tree map and exclusion bands

Shallow embedding of `src/map.rs` (a top-down splay tree `SplayMap`) and
`src/exclusions.rs` (the float/obstacle placement structure `Exclusions`),
with theorems checking the natural-language specification's claims.

Conventions:
* `Int` (the signed integral length unit, `i32` in the source) is modelled as
  `Int`; none of the verified scenarios exercises `i32` wrap-around, and the
  sentinel `MAX_AU = i32::MAX` is kept as the literal `2147483647`.
* The tree node type lives in `node.rs`, which is not part of the sources;
  its fields and detach/reattach helpers are fully determined by their uses
  in `map.rs` (Modelled from the spec: "a tree node exclusively owning up to
  two child subtrees and one key/value pair; pure data; no behavior beyond
  child detach/reattach helpers").  It is the inductive `Tree` below.
* Rust `panic!`/`expect`/`unwrap` paths are modelled with `Option`: a `none`
  result marks the fatal path.
* The unbounded propagation loop inside `Exclusions::exclude` is modelled
  with explicit fuel; the fuel chosen (`number of bands + 1`) strictly
  dominates the number of iterations the Rust loop can perform, because the
  walk visits strictly decreasing keys of a fixed finite key set.
-/

namespace Buoyancy

/-- The tree of `node.rs`: one key/value pair, two owned children. -/
inductive Tree (K V : Type) where
  | nil : Tree K V
  | node : Tree K V → K × V → Tree K V → Tree K V
deriving DecidableEq, Repr

namespace Tree

variable {K V : Type}

/-- In-order traversal: the logical contents of the tree. -/
def toList : Tree K V → List (K × V)
  | .nil => []
  | .node l kv r => toList l ++ kv :: toList r

/-- Number of nodes. -/
def sizeT : Tree K V → Nat
  | .nil => 0
  | .node l _ r => sizeT l + sizeT r + 1

@[simp] theorem toList_nil : (Tree.nil : Tree K V).toList = [] := rfl

@[simp] theorem toList_node (l : Tree K V) (kv : K × V) (r : Tree K V) :
    (Tree.node l kv r).toList = l.toList ++ kv :: r.toList := rfl

theorem length_toList (t : Tree K V) : t.toList.length = t.sizeT := by
  induction t with
  | nil => rfl
  | node l kv r ihl ihr => simp [toList, sizeT, ihl, ihr]; omega

end Tree

open Tree

variable {K V : Type}

/-- A right-accumulator entry `(kv, rc)`: a node detached during a `Less`
step of the top-down splay, keeping its right child `rc`; its missing left
child is filled in by later entries and finally by the terminal node's
right graft. -/
abbrev AccEntry (K V : Type) := (K × V) × Tree K V

/-- Assemble the left accumulator chain of `splay_with`: entries were pushed
most-recent-first, and each more recent entry sits deeper (as the right
child of the older ones); the hole at the deepest right position is `t`. -/
def assembleL : List (AccEntry K V) → Tree K V → Tree K V
  | [], t => t
  | (kv, lc) :: rest, t => assembleL rest (.node lc kv t)

/-- Assemble the right accumulator chain of `splay_with` (mirror image). -/
def assembleR : List (AccEntry K V) → Tree K V → Tree K V
  | [], t => t
  | (kv, rc) :: rest, t => assembleR rest (.node t kv rc)

/-- In-order contents contributed by a left accumulator. -/
def flatL : List (AccEntry K V) → List (K × V)
  | [] => []
  | (kv, lc) :: rest => flatL rest ++ (lc.toList ++ [kv])

/-- In-order contents contributed by a right accumulator. -/
def flatR : List (AccEntry K V) → List (K × V)
  | [] => []
  | (kv, rc) :: rest => kv :: rc.toList ++ flatR rest

theorem toList_assembleL (a : List (AccEntry K V)) (t : Tree K V) :
    (assembleL a t).toList = flatL a ++ t.toList := by
  induction a generalizing t with
  | nil => simp [assembleL, flatL]
  | cons e rest ih =>
    obtain ⟨kv, lc⟩ := e
    simp [assembleL, flatL, ih, List.append_assoc]

theorem toList_assembleR (a : List (AccEntry K V)) (t : Tree K V) :
    (assembleR a t).toList = t.toList ++ flatR a := by
  induction a generalizing t with
  | nil => simp [assembleR, flatR]
  | cons e rest ih =>
    obtain ⟨kv, rc⟩ := e
    simp [assembleR, flatR, ih, List.append_assoc]

/-- The loop of `splay_with` in `map.rs`.  The working node is split into its
pair `kv` and children `lt`, `rt`; `aL`/`aR` are the two accumulator chains
("newright"/"newleft" in the source, which are intentionally swapped there).
Each `match` arm mirrors one control path of the Rust loop, including the
zig-zig rotation and its early-exit cases, and the final grafting of the two
chains onto the terminal node.  The loop terminates because each iteration
strictly shrinks `lt.sizeT + rt.sizeT`; that measure is made explicit here
as a fuel argument (`splay` below passes fuel strictly above the measure, so
the fuel-exhausted first arm is never reached). -/
def splayStep (c : K → V → Ordering) :
    Nat → K × V → Tree K V → Tree K V →
    List (AccEntry K V) → List (AccEntry K V) → Tree K V
  | 0, kv, lt, rt, aL, aR => .node (assembleL aL lt) kv (assembleR aR rt)
  | n + 1, kv, lt, rt, aL, aR =>
    match c kv.1 kv.2 with
    | .eq => .node (assembleL aL lt) kv (assembleR aR rt)
    | .lt =>
      match lt with
      | .nil => .node (assembleL aL .nil) kv (assembleR aR rt)
      | .node llt lkv lrt =>
        match c lkv.1 lkv.2 with
        | .lt =>
          match llt with
          | .nil => .node (assembleL aL .nil) lkv (assembleR aR (.node lrt kv rt))
          | .node a x b => splayStep c n x a b aL ((lkv, Tree.node lrt kv rt) :: aR)
        | .eq => splayStep c n lkv llt lrt aL ((kv, rt) :: aR)
        | .gt => splayStep c n lkv llt lrt aL ((kv, rt) :: aR)
    | .gt =>
      match rt with
      | .nil => .node (assembleL aL lt) kv (assembleR aR .nil)
      | .node rlt rkv rrt =>
        match c rkv.1 rkv.2 with
        | .gt =>
          match rrt with
          | .nil => .node (assembleL aL (.node lt kv rlt)) rkv (assembleR aR .nil)
          | .node a x b => splayStep c n x a b ((rkv, Tree.node lt kv rlt) :: aL) aR
        | .eq => splayStep c n rkv rlt rrt ((kv, lt) :: aL) aR
        | .lt => splayStep c n rkv rlt rrt ((kv, lt) :: aL) aR

/-- `splay_with` of `map.rs`: never called on an empty tree in the source;
on `nil` we return `nil`. -/
def splay (c : K → V → Ordering) : Tree K V → Tree K V
  | .nil => .nil
  | .node l kv r => splayStep c (l.sizeT + r.sizeT + 1) kv l r [] []

/-- The splay loop preserves the in-order contents, accumulators included. -/
theorem toList_splayStep (c : K → V → Ordering) (fuel : Nat) (kv : K × V)
    (lt rt : Tree K V) (aL aR : List (AccEntry K V)) :
    (splayStep c fuel kv lt rt aL aR).toList =
      flatL aL ++ lt.toList ++ kv :: rt.toList ++ flatR aR := by
  induction fuel generalizing kv lt rt aL aR with
  | zero => simp [splayStep, toList_assembleL, toList_assembleR, List.append_assoc]
  | succ n ih =>
    cases hc : c kv.1 kv.2
    · cases lt with
      | nil => simp [splayStep, hc, toList_assembleL, toList_assembleR, List.append_assoc]
      | node llt lkv lrt =>
        cases hcl : c lkv.1 lkv.2
        · cases llt with
          | nil =>
            simp [splayStep, hc, hcl, toList_assembleL, toList_assembleR, flatR,
              List.append_assoc]
          | node a x b =>
            simp [splayStep, hc, hcl, ih, flatR, List.append_assoc]
        · simp [splayStep, hc, hcl, ih, flatR, List.append_assoc]
        · simp [splayStep, hc, hcl, ih, flatR, List.append_assoc]
    · simp [splayStep, hc, toList_assembleL, toList_assembleR, List.append_assoc]
    · cases rt with
      | nil => simp [splayStep, hc, toList_assembleL, toList_assembleR, List.append_assoc]
      | node rlt rkv rrt =>
        cases hcr : c rkv.1 rkv.2
        · simp [splayStep, hc, hcr, ih, flatL, List.append_assoc]
        · simp [splayStep, hc, hcr, ih, flatL, List.append_assoc]
        · cases rrt with
          | nil =>
            simp [splayStep, hc, hcr, toList_assembleL, toList_assembleR, flatL,
              List.append_assoc]
          | node a x b =>
            simp [splayStep, hc, hcr, ih, flatL, List.append_assoc]

/-- Splaying preserves the logical contents of the tree. -/
theorem toList_splay (c : K → V → Ordering) (t : Tree K V) :
    (splay c t).toList = t.toList := by
  cases t with
  | nil => rfl
  | node l kv r => simp [splay, toList_splayStep, flatL, flatR]

theorem toList_eq_nil {t : Tree K V} : t.toList = [] ↔ t = .nil := by
  cases t <;> simp

theorem splay_ne_nil (c : K → V → Ordering) {l : Tree K V} {kv : K × V}
    {r : Tree K V} : splay c (Tree.node l kv r) ≠ .nil := by
  intro h
  have := toList_splay c (Tree.node l kv r)
  rw [h] at this
  simp at this

section Ordered

variable [LinearOrder K]

/-- Strictly ascending keys: the binding list of a binary search tree. -/
def sortedKV (l : List (K × V)) : Prop := l.Pairwise (fun p q => p.1 < q.1)

theorem sortedKV_cons_mid {A B : List (K × V)} {q : K × V}
    (h : sortedKV (A ++ q :: B)) :
    (∀ p ∈ A, p.1 < q.1) ∧ (∀ p ∈ B, q.1 < p.1) := by
  rw [sortedKV, List.pairwise_append] at h
  refine ⟨fun p hp => h.2.2 p hp q (by simp), fun p hp => ?_⟩
  exact (List.pairwise_cons.mp h.2.1).1 p hp

/-- Numeric height of a comparator answer along the key axis: `Greater`
(key too small) < `Equal` < `Less` (key too large). -/
def rank : Ordering → Nat
  | .gt => 0
  | .eq => 1
  | .lt => 2

/-- A comparator drives a binary search iff its answers are monotone along
the bindings it is run against. -/
def MonoOn (c : K → V → Ordering) (l : List (K × V)) : Prop :=
  ∀ p ∈ l, ∀ q ∈ l, p.1 < q.1 → rank (c p.1 p.2) ≤ rank (c q.1 q.2)

theorem mono_lt_of_lt {c : K → V → Ordering} {l : List (K × V)}
    (hm : MonoOn c l) {p q : K × V} (hp : p ∈ l) (hq : q ∈ l)
    (hlt : p.1 < q.1) (hc : c p.1 p.2 = .lt) : c q.1 q.2 = .lt := by
  have h := hm p hp q hq hlt
  rw [hc] at h
  cases hcq : c q.1 q.2 <;> rw [hcq] at h <;> simp [rank] at h <;> rfl

theorem mono_gt_of_gt {c : K → V → Ordering} {l : List (K × V)}
    (hm : MonoOn c l) {p q : K × V} (hp : p ∈ l) (hq : q ∈ l)
    (hlt : p.1 < q.1) (hc : c q.1 q.2 = .gt) : c p.1 p.2 = .gt := by
  have h := hm p hp q hq hlt
  rw [hc] at h
  cases hcp : c p.1 p.2 <;> rw [hcp] at h <;> simp [rank] at h <;> rfl

/-- If the driving comparator is monotone over the bindings and some binding
answers `Equal`, the top-down splay terminates on a binding answering
`Equal` (which then sits at the new root). -/
theorem splayStep_finds_eq (c : K → V → Ordering) (l₀ : List (K × V))
    (hs : sortedKV l₀) (hm : MonoOn c l₀) :
    ∀ (fuel : Nat) (kv : K × V) (lt rt : Tree K V)
      (aL aR : List (AccEntry K V)),
      lt.sizeT + rt.sizeT < fuel →
      flatL aL ++ lt.toList ++ kv :: rt.toList ++ flatR aR = l₀ →
      (∃ p ∈ lt.toList ++ kv :: rt.toList, c p.1 p.2 = .eq) →
      ∃ L q R, splayStep c fuel kv lt rt aL aR = .node L q R ∧
        c q.1 q.2 = .eq := by
  intro fuel
  induction fuel with
  | zero => intro kv lt rt aL aR hf; omega
  | succ n ih =>
    intro kv lt rt aL aR hf htot hcur
    have hkv_mem : kv ∈ l₀ := by rw [← htot]; simp
    cases hc : c kv.1 kv.2
    case eq =>
      exact ⟨assembleL aL lt, kv, assembleR aR rt, by simp [splayStep, hc], hc⟩
    case lt =>
      obtain ⟨p, hp, hpe⟩ := hcur
      have hp_mem : p ∈ l₀ := by
        rw [← htot]
        simp only [List.mem_append, List.mem_cons] at hp ⊢
        tauto
      -- the Equal binding cannot be `kv` nor lie in `rt`
      have hs' : sortedKV ((flatL aL ++ lt.toList) ++ kv :: (rt.toList ++ flatR aR)) := by
        rw [sortedKV]
        rw [show (flatL aL ++ lt.toList) ++ kv :: (rt.toList ++ flatR aR)
            = flatL aL ++ lt.toList ++ kv :: rt.toList ++ flatR aR by simp]
        exact htot ▸ hs
      have hafter := (sortedKV_cons_mid hs').2
      have hp_lt : p ∈ lt.toList := by
        rcases List.mem_append.mp hp with h | h
        · exact h
        · rcases List.mem_cons.mp h with h | h
          · subst h; rw [hc] at hpe; cases hpe
          · have hk : kv.1 < p.1 := hafter p (by simp [h])
            have := mono_lt_of_lt hm hkv_mem hp_mem hk hc
            rw [this] at hpe; cases hpe
      cases hlt : lt with
      | nil => rw [hlt] at hp_lt; simp at hp_lt
      | node llt lkv lrt =>
        rw [hlt] at hp_lt hf htot
        have hlkv_mem : lkv ∈ l₀ := by rw [← htot]; simp
        cases hcl : c lkv.1 lkv.2
        case eq =>
          -- descend into the whole left child, pushing (kv, rt)
          have htot' : flatL aL ++ llt.toList ++ lkv :: lrt.toList ++
              flatR ((kv, rt) :: aR) = l₀ := by
            rw [← htot]; simp [flatR]
          have := ih lkv llt lrt aL ((kv, rt) :: aR)
            (by simp [sizeT] at hf ⊢; omega) htot'
            ⟨p, by simpa using hp_lt, hpe⟩
          simpa [splayStep, hc, hcl] using this
        case gt =>
          have htot' : flatL aL ++ llt.toList ++ lkv :: lrt.toList ++
              flatR ((kv, rt) :: aR) = l₀ := by
            rw [← htot]; simp [flatR]
          have := ih lkv llt lrt aL ((kv, rt) :: aR)
            (by simp [sizeT] at hf ⊢; omega) htot'
            ⟨p, by simpa using hp_lt, hpe⟩
          simpa [splayStep, hc, hcl] using this
        case lt =>
          -- zig-zig: the Equal binding must sit in `llt`
          have hs'' : sortedKV ((flatL aL ++ llt.toList) ++
              lkv :: (lrt.toList ++ kv :: rt.toList ++ flatR aR)) := by
            rw [sortedKV]
            rw [show (flatL aL ++ llt.toList) ++
                lkv :: (lrt.toList ++ kv :: rt.toList ++ flatR aR)
                = flatL aL ++ (llt.toList ++ lkv :: lrt.toList) ++
                  kv :: rt.toList ++ flatR aR by simp]
            exact htot ▸ hs
          have hafter' := (sortedKV_cons_mid hs'').2
          have hp_llt : p ∈ llt.toList := by
            simp only [toList_node, List.mem_append, List.mem_cons] at hp_lt
            rcases hp_lt with h | h | h
            · exact h
            · subst h; rw [hcl] at hpe; cases hpe
            · have hk : lkv.1 < p.1 := hafter' p (by simp [h])
              have := mono_lt_of_lt hm hlkv_mem hp_mem hk hcl
              rw [this] at hpe; cases hpe
          cases hllt : llt with
          | nil => rw [hllt] at hp_llt; simp at hp_llt
          | node a x b =>
            rw [hllt] at hp_llt hf htot
            have htot' : flatL aL ++ a.toList ++ x :: b.toList ++
                flatR ((lkv, Tree.node lrt kv rt) :: aR) = l₀ := by
              rw [← htot]; simp [flatR]
            have := ih x a b aL ((lkv, Tree.node lrt kv rt) :: aR)
              (by simp [sizeT] at hf ⊢; omega) htot'
              ⟨p, by simpa using hp_llt, hpe⟩
            simpa [splayStep, hc, hcl] using this
    case gt =>
      obtain ⟨p, hp, hpe⟩ := hcur
      have hp_mem : p ∈ l₀ := by
        rw [← htot]
        simp only [List.mem_append, List.mem_cons] at hp ⊢
        tauto
      have hs' : sortedKV ((flatL aL ++ lt.toList) ++ kv :: (rt.toList ++ flatR aR)) := by
        rw [sortedKV]
        rw [show (flatL aL ++ lt.toList) ++ kv :: (rt.toList ++ flatR aR)
            = flatL aL ++ lt.toList ++ kv :: rt.toList ++ flatR aR by simp]
        exact htot ▸ hs
      have hbefore := (sortedKV_cons_mid hs').1
      have hp_rt : p ∈ rt.toList := by
        rcases List.mem_append.mp hp with h | h
        · have hk : p.1 < kv.1 := hbefore p (by simp [h])
          have := mono_gt_of_gt hm hp_mem hkv_mem hk hc
          rw [this] at hpe; cases hpe
        · rcases List.mem_cons.mp h with h | h
          · subst h; rw [hc] at hpe; cases hpe
          · exact h
      cases hrt : rt with
      | nil => rw [hrt] at hp_rt; simp at hp_rt
      | node rlt rkv rrt =>
        rw [hrt] at hp_rt hf htot
        have hrkv_mem : rkv ∈ l₀ := by rw [← htot]; simp
        cases hcr : c rkv.1 rkv.2
        case eq =>
          have htot' : flatL ((kv, lt) :: aL) ++ rlt.toList ++ rkv :: rrt.toList ++
              flatR aR = l₀ := by
            rw [← htot]; simp [flatL]
          have := ih rkv rlt rrt ((kv, lt) :: aL) aR
            (by simp [sizeT] at hf ⊢; omega) htot'
            ⟨p, by simpa using hp_rt, hpe⟩
          simpa [splayStep, hc, hcr] using this
        case lt =>
          have htot' : flatL ((kv, lt) :: aL) ++ rlt.toList ++ rkv :: rrt.toList ++
              flatR aR = l₀ := by
            rw [← htot]; simp [flatL]
          have := ih rkv rlt rrt ((kv, lt) :: aL) aR
            (by simp [sizeT] at hf ⊢; omega) htot'
            ⟨p, by simpa using hp_rt, hpe⟩
          simpa [splayStep, hc, hcr] using this
        case gt =>
          have hs'' : sortedKV ((flatL aL ++ lt.toList ++ kv :: rlt.toList) ++
              rkv :: (rrt.toList ++ flatR aR)) := by
            rw [sortedKV]
            rw [show (flatL aL ++ lt.toList ++ kv :: rlt.toList) ++
                rkv :: (rrt.toList ++ flatR aR)
                = flatL aL ++ lt.toList ++
                  kv :: (rlt.toList ++ rkv :: rrt.toList) ++ flatR aR by simp]
            exact htot ▸ hs
          have hbefore' := (sortedKV_cons_mid hs'').1
          have hp_rrt : p ∈ rrt.toList := by
            simp only [toList_node, List.mem_append, List.mem_cons] at hp_rt
            rcases hp_rt with h | h | h
            · have hk : p.1 < rkv.1 := hbefore' p (by simp [h])
              have := mono_gt_of_gt hm hp_mem hrkv_mem hk hcr
              rw [this] at hpe; cases hpe
            · subst h; rw [hcr] at hpe; cases hpe
            · exact h
          cases hrrt : rrt with
          | nil => rw [hrrt] at hp_rrt; simp at hp_rrt
          | node a x b =>
            rw [hrrt] at hp_rrt hf htot
            have htot' : flatL ((rkv, Tree.node lt kv rlt) :: aL) ++
                a.toList ++ x :: b.toList ++ flatR aR = l₀ := by
              rw [← htot]; simp [flatL]
            have := ih x a b ((rkv, Tree.node lt kv rlt) :: aL) aR
              (by simp [sizeT] at hf ⊢; omega) htot'
              ⟨p, by simpa using hp_rrt, hpe⟩
            simpa [splayStep, hc, hcr] using this

/-- At the end of a monotone-driven splay whose accumulators hold only
`Greater`-answering (left chain) and `Less`-answering (right chain)
bindings, a root answering `Less` has only `Greater`-answering bindings in
its left subtree, and a root answering `Greater` has only `Less`-answering
bindings in its right subtree.  (This is what makes the post-splay tree
"split-ready" for `insert`, and puts the subtree maximum at the root for
`remove`.) -/
theorem splayStep_sides (c : K → V → Ordering) (l₀ : List (K × V))
    (hs : sortedKV l₀) (hm : MonoOn c l₀) :
    ∀ (fuel : Nat) (kv : K × V) (lt rt : Tree K V)
      (aL aR : List (AccEntry K V)),
      lt.sizeT + rt.sizeT < fuel →
      flatL aL ++ lt.toList ++ kv :: rt.toList ++ flatR aR = l₀ →
      (∀ p ∈ flatL aL, c p.1 p.2 = .gt) →
      (∀ p ∈ flatR aR, c p.1 p.2 = .lt) →
      ∃ L q R, splayStep c fuel kv lt rt aL aR = .node L q R ∧
        (c q.1 q.2 = .lt → ∀ p ∈ L.toList, c p.1 p.2 = .gt) ∧
        (c q.1 q.2 = .gt → ∀ p ∈ R.toList, c p.1 p.2 = .lt) := by
  intro fuel
  induction fuel with
  | zero => intro kv lt rt aL aR hf; omega
  | succ n ih =>
    intro kv lt rt aL aR hf htot haL haR
    have hkv_mem : kv ∈ l₀ := by rw [← htot]; simp
    cases hc : c kv.1 kv.2
    case eq =>
      refine ⟨assembleL aL lt, kv, assembleR aR rt, by simp [splayStep, hc], ?_, ?_⟩ <;>
        (rw [hc]; intro h; cases h)
    case lt =>
      have hs' : sortedKV ((flatL aL ++ lt.toList) ++ kv :: (rt.toList ++ flatR aR)) := by
        rw [sortedKV]
        rw [show (flatL aL ++ lt.toList) ++ kv :: (rt.toList ++ flatR aR)
            = flatL aL ++ lt.toList ++ kv :: rt.toList ++ flatR aR by simp]
        exact htot ▸ hs
      have hafter := (sortedKV_cons_mid hs').2
      -- every binding at or past `kv` answers Less
      have hrt_lt : ∀ p ∈ rt.toList, c p.1 p.2 = .lt := by
        intro p hp
        have hp_mem : p ∈ l₀ := by
          rw [← htot]; simp only [List.mem_append, List.mem_cons]; tauto
        exact mono_lt_of_lt hm hkv_mem hp_mem (hafter p (by simp [hp])) hc
      cases hlt : lt with
      | nil =>
        refine ⟨assembleL aL .nil, kv, assembleR aR rt,
          by simp [splayStep, hc, hlt], ?_, ?_⟩
        · intro _ p hp
          rw [toList_assembleL] at hp
          simp only [toList_nil, List.append_nil] at hp
          exact haL p hp
        · rw [hc]; intro h; cases h
      | node llt lkv lrt =>
        rw [hlt] at hf htot
        have hlkv_mem : lkv ∈ l₀ := by rw [← htot]; simp
        have haR' : ∀ p ∈ flatR ((kv, rt) :: aR), c p.1 p.2 = .lt := by
          intro p hp
          rw [flatR] at hp
          rcases List.mem_cons.mp hp with h | h
          · subst h; exact hc
          · rcases List.mem_append.mp h with h | h
            · exact hrt_lt p h
            · exact haR p h
        cases hcl : c lkv.1 lkv.2
        case eq =>
          have htot' : flatL aL ++ llt.toList ++ lkv :: lrt.toList ++
              flatR ((kv, rt) :: aR) = l₀ := by
            rw [← htot]; simp [flatR]
          have := ih lkv llt lrt aL ((kv, rt) :: aR)
            (by simp [sizeT] at hf ⊢; omega) htot' haL haR'
          simpa [splayStep, hc, hcl] using this
        case gt =>
          have htot' : flatL aL ++ llt.toList ++ lkv :: lrt.toList ++
              flatR ((kv, rt) :: aR) = l₀ := by
            rw [← htot]; simp [flatR]
          have := ih lkv llt lrt aL ((kv, rt) :: aR)
            (by simp [sizeT] at hf ⊢; omega) htot' haL haR'
          simpa [splayStep, hc, hcl] using this
        case lt =>
          have hs'' : sortedKV ((flatL aL ++ llt.toList) ++
              lkv :: (lrt.toList ++ kv :: rt.toList ++ flatR aR)) := by
            rw [sortedKV]
            rw [show (flatL aL ++ llt.toList) ++
                lkv :: (lrt.toList ++ kv :: rt.toList ++ flatR aR)
                = flatL aL ++ (llt.toList ++ lkv :: lrt.toList) ++
                  kv :: rt.toList ++ flatR aR by simp]
            exact htot ▸ hs
          have hafter' := (sortedKV_cons_mid hs'').2
          have hlrt_lt : ∀ p ∈ lrt.toList, c p.1 p.2 = .lt := by
            intro p hp
            have hp_mem : p ∈ l₀ := by
              rw [← htot]; simp only [List.mem_append, List.mem_cons, toList_node]; tauto
            exact mono_lt_of_lt hm hlkv_mem hp_mem (hafter' p (by simp [hp])) hcl
          have haR'' : ∀ p ∈ flatR ((lkv, Tree.node lrt kv rt) :: aR),
              c p.1 p.2 = .lt := by
            intro p hp
            rw [flatR] at hp
            rcases List.mem_cons.mp hp with h | h
            · subst h; exact hcl
            · rcases List.mem_append.mp h with h | h
              · simp only [toList_node, List.mem_append, List.mem_cons] at h
                rcases h with h | h | h
                · exact hlrt_lt p h
                · subst h; exact hc
                · exact hrt_lt p h
              · exact haR p h
          cases hllt : llt with
          | nil =>
            refine ⟨assembleL aL .nil, lkv, assembleR aR (.node lrt kv rt),
              by simp [splayStep, hc, hcl, hllt], ?_, ?_⟩
            · intro _ p hp
              rw [toList_assembleL] at hp
              simp only [toList_nil, List.append_nil] at hp
              exact haL p hp
            · rw [hcl]; intro h; cases h
          | node a x b =>
            rw [hllt] at hf htot
            have htot' : flatL aL ++ a.toList ++ x :: b.toList ++
                flatR ((lkv, Tree.node lrt kv rt) :: aR) = l₀ := by
              rw [← htot]; simp [flatR]
            have := ih x a b aL ((lkv, Tree.node lrt kv rt) :: aR)
              (by simp [sizeT] at hf ⊢; omega) htot' haL haR''
            simpa [splayStep, hc, hcl] using this
    case gt =>
      have hs' : sortedKV ((flatL aL ++ lt.toList) ++ kv :: (rt.toList ++ flatR aR)) := by
        rw [sortedKV]
        rw [show (flatL aL ++ lt.toList) ++ kv :: (rt.toList ++ flatR aR)
            = flatL aL ++ lt.toList ++ kv :: rt.toList ++ flatR aR by simp]
        exact htot ▸ hs
      have hbefore := (sortedKV_cons_mid hs').1
      have hlt_gt : ∀ p ∈ lt.toList, c p.1 p.2 = .gt := by
        intro p hp
        have hp_mem : p ∈ l₀ := by
          rw [← htot]; simp only [List.mem_append, List.mem_cons]; tauto
        exact mono_gt_of_gt hm hp_mem hkv_mem (hbefore p (by simp [hp])) hc
      cases hrt : rt with
      | nil =>
        refine ⟨assembleL aL lt, kv, assembleR aR .nil,
          by simp [splayStep, hc, hrt], ?_, ?_⟩
        · rw [hc]; intro h; cases h
        · intro _ p hp
          rw [toList_assembleR] at hp
          simp only [toList_nil, List.nil_append] at hp
          exact haR p hp
      | node rlt rkv rrt =>
        rw [hrt] at hf htot
        have hrkv_mem : rkv ∈ l₀ := by rw [← htot]; simp
        have haL' : ∀ p ∈ flatL ((kv, lt) :: aL), c p.1 p.2 = .gt := by
          intro p hp
          rw [flatL] at hp
          rcases List.mem_append.mp hp with h | h
          · exact haL p h
          · rcases List.mem_append.mp h with h | h
            · exact hlt_gt p h
            · simp at h; subst h; exact hc
        cases hcr : c rkv.1 rkv.2
        case eq =>
          have htot' : flatL ((kv, lt) :: aL) ++ rlt.toList ++ rkv :: rrt.toList ++
              flatR aR = l₀ := by
            rw [← htot]; simp [flatL]
          have := ih rkv rlt rrt ((kv, lt) :: aL) aR
            (by simp [sizeT] at hf ⊢; omega) htot' haL' haR
          simpa [splayStep, hc, hcr] using this
        case lt =>
          have htot' : flatL ((kv, lt) :: aL) ++ rlt.toList ++ rkv :: rrt.toList ++
              flatR aR = l₀ := by
            rw [← htot]; simp [flatL]
          have := ih rkv rlt rrt ((kv, lt) :: aL) aR
            (by simp [sizeT] at hf ⊢; omega) htot' haL' haR
          simpa [splayStep, hc, hcr] using this
        case gt =>
          have hs'' : sortedKV ((flatL aL ++ lt.toList ++ kv :: rlt.toList) ++
              rkv :: (rrt.toList ++ flatR aR)) := by
            rw [sortedKV]
            rw [show (flatL aL ++ lt.toList ++ kv :: rlt.toList) ++
                rkv :: (rrt.toList ++ flatR aR)
                = flatL aL ++ lt.toList ++
                  kv :: (rlt.toList ++ rkv :: rrt.toList) ++ flatR aR by simp]
            exact htot ▸ hs
          have hbefore' := (sortedKV_cons_mid hs'').1
          have hrlt_gt : ∀ p ∈ rlt.toList, c p.1 p.2 = .gt := by
            intro p hp
            have hp_mem : p ∈ l₀ := by
              rw [← htot]; simp only [List.mem_append, List.mem_cons, toList_node]; tauto
            exact mono_gt_of_gt hm hp_mem hrkv_mem (hbefore' p (by simp [hp])) hcr
          have haL'' : ∀ p ∈ flatL ((rkv, Tree.node lt kv rlt) :: aL),
              c p.1 p.2 = .gt := by
            intro p hp
            rw [flatL] at hp
            rcases List.mem_append.mp hp with h | h
            · exact haL p h
            · rcases List.mem_append.mp h with h | h
              · simp only [toList_node, List.mem_append, List.mem_cons] at h
                rcases h with h | h | h
                · exact hlt_gt p h
                · subst h; exact hc
                · exact hrlt_gt p h
              · simp at h; subst h; exact hcr
          cases hrrt : rrt with
          | nil =>
            refine ⟨assembleL aL (.node lt kv rlt), rkv, assembleR aR .nil,
              by simp [splayStep, hc, hcr, hrrt], ?_, ?_⟩
            · rw [hcr]; intro h; cases h
            · intro _ p hp
              rw [toList_assembleR] at hp
              simp only [toList_nil, List.nil_append] at hp
              exact haR p hp
          | node a x b =>
            rw [hrrt] at hf htot
            have htot' : flatL ((rkv, Tree.node lt kv rlt) :: aL) ++
                a.toList ++ x :: b.toList ++ flatR aR = l₀ := by
              rw [← htot]; simp [flatL]
            have := ih x a b ((rkv, Tree.node lt kv rlt) :: aL) aR
              (by simp [sizeT] at hf ⊢; omega) htot' haL'' haR
            simpa [splayStep, hc, hcr] using this


/-- `splay` level version of `splayStep_finds_eq`. -/
theorem splay_finds_eq (c : K → V → Ordering) (t : Tree K V)
    (hs : sortedKV t.toList) (hm : MonoOn c t.toList)
    (he : ∃ p ∈ t.toList, c p.1 p.2 = .eq) :
    ∃ L q R, splay c t = .node L q R ∧ c q.1 q.2 = .eq := by
  cases t with
  | nil => simp at he
  | node l kv r =>
    have := splayStep_finds_eq c (Tree.node l kv r).toList hs hm
      (l.sizeT + r.sizeT + 1) kv l r [] [] (by omega)
      (by simp [flatL, flatR]) (by simpa using he)
    simpa [splay] using this

/-- `splay` level version of `splayStep_sides`. -/
theorem splay_sides (c : K → V → Ordering) {l : Tree K V} {v : K × V}
    {r : Tree K V} (hs : sortedKV (Tree.node l v r).toList)
    (hm : MonoOn c (Tree.node l v r).toList) :
    ∃ L q R, splay c (Tree.node l v r) = .node L q R ∧
      (c q.1 q.2 = .lt → ∀ p ∈ L.toList, c p.1 p.2 = .gt) ∧
      (c q.1 q.2 = .gt → ∀ p ∈ R.toList, c p.1 p.2 = .lt) := by
  have := splayStep_sides c (Tree.node l v r).toList hs hm
    (l.sizeT + r.sizeT + 1) v l r [] [] (by omega)
    (by simp [flatL, flatR]) (by simp [flatL]) (by simp [flatR])
  simpa [splay] using this

/-- The key-driven comparator of `splay_with_key`: `key.cmp(other_key)`. -/
def keyCmp (key : K) : K → V → Ordering := fun k _ => compare key k

theorem monoOn_keyCmp (key : K) (l : List (K × V)) :
    MonoOn (keyCmp key) l := by
  intro p _ q _ hlt
  rcases lt_trichotomy key p.1 with h | h | h
  · have h2 : key < q.1 := h.trans hlt
    simp [keyCmp, compare_lt_iff_lt.mpr h, compare_lt_iff_lt.mpr h2]
  · have h2 : key < q.1 := h ▸ hlt
    simp [keyCmp, compare_eq_iff_eq.mpr h, compare_lt_iff_lt.mpr h2, rank]
  · simp [keyCmp, compare_gt_iff_gt.mpr h, rank]

theorem keyCmp_eq_iff (key : K) (p : K × V) :
    keyCmp key p.1 p.2 = .eq ↔ p.1 = key := by
  rw [keyCmp, compare_eq_iff_eq, eq_comm]

/-- The keys of a binding list. -/
def keysOf (l : List (K × V)) : List K := l.map Prod.fst

end Ordered

/-- The `SplayMap` of `map.rs`: a root tree plus a stored size field. -/
structure SplayMap (K V : Type) where
  root : Tree K V
  size : Nat
deriving DecidableEq, Repr

namespace SplayMap

variable {K V : Type}

/-- `SplayMap::new`. -/
def new : SplayMap K V := ⟨.nil, 0⟩

variable [LinearOrder K]

/-- `SplayMap::get`: splays by the key (restructuring the tree even though
the Rust signature takes `&self`), then reports the root's value on an
exact key match.  Returns the result together with the restructured map. -/
def get (m : SplayMap K V) (key : K) : Option V × SplayMap K V :=
  match m.root with
  | .nil => (none, m)
  | .node l kv r =>
    match splay (keyCmp key) (.node l kv r) with
    | .nil => (none, m)
    | .node L q R =>
      (if key = q.1 then some q.2 else none, ⟨.node L q R, m.size⟩)

/-- `SplayMap::insert`. -/
def insert (m : SplayMap K V) (key : K) (v : V) : Option V × SplayMap K V :=
  match m.root with
  | .nil => (none, ⟨.node .nil (key, v) .nil, m.size + 1⟩)
  | .node l kv r =>
    match splay (keyCmp key) (.node l kv r) with
    | .nil => (none, m)
    | .node L q R =>
      match compare key q.1 with
      | .eq => (some q.2, ⟨.node L (q.1, v) R, m.size⟩)
      | .lt => (none, ⟨.node L (key, v) (.node .nil q R), m.size + 1⟩)
      | .gt => (none, ⟨.node (.node L q .nil) (key, v) R, m.size + 1⟩)

/-- `SplayMap::remove`: on a hit, detaches the root, splays the left
subtree by the same key (which brings its maximum to its root, with an
empty right child), and reattaches the right subtree there.  The
re-splayed left root's right child is overwritten exactly as in the
source (`node.right = right`). -/
def remove (m : SplayMap K V) (key : K) : Option V × SplayMap K V :=
  match m.root with
  | .nil => (none, m)
  | .node l kv r =>
    match splay (keyCmp key) (.node l kv r) with
    | .nil => (none, m)
    | .node L q R =>
      if key = q.1 then
        match L with
        | .nil => (some q.2, ⟨R, m.size - 1⟩)
        | .node a x b =>
          match splay (keyCmp key) (.node a x b) with
          | .nil => (some q.2, ⟨R, m.size - 1⟩)
          | .node Ll mq _ => (some q.2, ⟨.node Ll mq R, m.size - 1⟩)
      else (none, ⟨.node L q R, m.size⟩)

/-- `SplayMap::get_with_mut`: splays with the supplied comparator and
returns the root pair if the comparator judges it `Equal`.  The caller of
the Rust version mutates through the returned reference; here the
restructured map is returned alongside. -/
def get_with_mut (c : K → V → Ordering) (m : SplayMap K V) :
    Option (K × V) × SplayMap K V :=
  match m.root with
  | .nil => (none, m)
  | .node l kv r =>
    match splay c (.node l kv r) with
    | .nil => (none, m)
    | .node L q R =>
      (if c q.1 q.2 = .eq then some q else none, ⟨.node L q R, m.size⟩)

end SplayMap

/-- `lower_bound_with` of `map.rs`: read-only recursive descent, no
restructuring. -/
def lower_bound_with (c : K → V → Ordering) : Tree K V → Option (K × V)
  | .nil => none
  | .node l kv r =>
    match c kv.1 kv.2 with
    | .lt =>
      match lower_bound_with c l with
      | some p => some p
      | none => some kv
    | .gt => lower_bound_with c r
    | .eq => some kv

/-- Map-level `lower_bound_with`. -/
def SplayMap.lower_bound (c : K → V → Ordering) (m : SplayMap K V) :
    Option (K × V) :=
  lower_bound_with c m.root

section ListModel

variable [LinearOrder K]

/-- Reference model lookup on a binding list. -/
def lookupL (key : K) (l : List (K × V)) : Option V :=
  (l.find? fun p => p.1 = key).map Prod.snd

/-- Reference model insert on a sorted binding list (last value wins). -/
def insertL (key : K) (v : V) : List (K × V) → List (K × V)
  | [] => [(key, v)]
  | p :: rest =>
    if key < p.1 then (key, v) :: p :: rest
    else if key = p.1 then (key, v) :: rest
    else p :: insertL key v rest

/-- Reference model removal on a binding list. -/
def removeL (key : K) : List (K × V) → List (K × V)
  | [] => []
  | p :: rest => if p.1 = key then rest else p :: removeL key rest

@[simp] theorem lookupL_nil (key : K) : lookupL key ([] : List (K × V)) = none := rfl

theorem lookupL_of_sorted_mem {l : List (K × V)} {p : K × V} {key : K}
    (hs : sortedKV l) (hp : p ∈ l) (hk : p.1 = key) :
    lookupL key l = some p.2 := by
  induction l with
  | nil => simp at hp
  | cons q rest ih =>
    rw [sortedKV, List.pairwise_cons] at hs
    rcases List.mem_cons.mp hp with h | h
    · subst h
      simp [lookupL, List.find?, hk]
    · have hne : q.1 ≠ key := by
        intro he
        exact absurd (hk ▸ hs.1 p h) (by rw [he]; exact lt_irrefl key)
      simp only [lookupL, List.find?]
      rw [show decide (q.1 = key) = false from decide_eq_false hne]
      exact ih hs.2 h

theorem lookupL_of_not_mem {l : List (K × V)} {key : K}
    (h : key ∉ keysOf l) : lookupL key l = none := by
  induction l with
  | nil => rfl
  | cons q rest ih =>
    simp only [keysOf, List.map_cons, List.mem_cons, not_or] at h
    simp only [lookupL, List.find?]
    rw [show decide (q.1 = key) = false from decide_eq_false (fun he => h.1 he.symm)]
    exact ih (by simpa [keysOf] using h.2)

theorem mem_insertL {l : List (K × V)} {key : K} {v : V} {q : K × V}
    (h : q ∈ insertL key v l) : q = (key, v) ∨ q ∈ l := by
  induction l with
  | nil => simpa [insertL] using h
  | cons p rest ih =>
    rw [insertL] at h
    split at h
    · rcases List.mem_cons.mp h with h | h
      · exact .inl h
      · exact .inr h
    · split at h
      · rcases List.mem_cons.mp h with h | h
        · exact .inl h
        · exact .inr (by simp [h])
      · rcases List.mem_cons.mp h with h | h
        · exact .inr (by simp [h])
        · rcases ih h with h | h
          · exact .inl h
          · exact .inr (by simp [h])

theorem sortedKV_cons {p : K × V} {l : List (K × V)} :
    sortedKV (p :: l) ↔ (∀ q ∈ l, p.1 < q.1) ∧ sortedKV l := List.pairwise_cons

theorem sortedKV_insertL {l : List (K × V)} {key : K} {v : V}
    (hs : sortedKV l) : sortedKV (insertL key v l) := by
  induction l with
  | nil => simp [insertL, sortedKV]
  | cons p rest ih =>
    rw [sortedKV_cons] at hs
    rw [insertL]
    by_cases h1 : key < p.1
    · rw [if_pos h1, sortedKV_cons]
      refine ⟨fun q hq => ?_, sortedKV_cons.mpr hs⟩
      rcases List.mem_cons.mp hq with h | h
      · simpa [h] using h1
      · exact lt_trans h1 (hs.1 q h)
    · rw [if_neg h1]
      by_cases h2 : key = p.1
      · rw [if_pos h2, sortedKV_cons]
        exact ⟨fun q hq => by rw [h2]; exact hs.1 q hq, hs.2⟩
      · rw [if_neg h2, sortedKV_cons]
        refine ⟨fun q hq => ?_, ih hs.2⟩
        rcases mem_insertL hq with h | h
        · have hp : p.1 < key := by
            rcases lt_trichotomy key p.1 with hh | hh | hh
            · exact absurd hh h1
            · exact absurd hh h2
            · exact hh
          simpa [h] using hp
        · exact hs.1 q h

theorem mem_removeL {l : List (K × V)} {key : K} {q : K × V}
    (h : q ∈ removeL key l) : q ∈ l := by
  induction l with
  | nil => simpa [removeL] using h
  | cons p rest ih =>
    rw [removeL] at h
    split at h
    · exact List.mem_cons_of_mem p h
    · rcases List.mem_cons.mp h with h | h
      · simp [h]
      · exact List.mem_cons_of_mem p (ih h)

theorem sortedKV_removeL {l : List (K × V)} {key : K}
    (hs : sortedKV l) : sortedKV (removeL key l) := by
  induction l with
  | nil => simp [removeL, sortedKV]
  | cons p rest ih =>
    rw [sortedKV_cons] at hs
    rw [removeL]
    split
    · exact hs.2
    · rw [sortedKV_cons]
      exact ⟨fun q hq => hs.1 q (mem_removeL hq), ih hs.2⟩

theorem insertL_mid_eq {A B : List (K × V)} {q : K × V} {key : K} {v : V}
    (hs : sortedKV (A ++ q :: B)) (hk : q.1 = key) :
    insertL key v (A ++ q :: B) = A ++ (q.1, v) :: B := by
  induction A with
  | nil =>
    simp only [List.nil_append, insertL]
    rw [if_neg (by rw [hk]; exact lt_irrefl key), if_pos hk.symm, hk]
  | cons a A ih =>
    have hmid := sortedKV_cons_mid (A := a :: A) (B := B) (q := q) hs
    have ha : a.1 < key := hk ▸ hmid.1 a (by simp)
    rw [List.cons_append, insertL,
      if_neg (fun h => absurd (lt_trans h ha) (lt_irrefl key)),
      if_neg (by intro h; rw [h] at ha; exact absurd ha (lt_irrefl _))]
    rw [sortedKV, List.cons_append, List.pairwise_cons] at hs
    exact congrArg (a :: ·) (ih hs.2)

theorem insertL_front {B : List (K × V)} {key : K} {v : V}
    (hB : ∀ p ∈ B, key < p.1) : insertL key v B = (key, v) :: B := by
  cases B with
  | nil => rfl
  | cons b B => rw [insertL, if_pos (hB b (by simp))]

theorem insertL_mid_lt {A B : List (K × V)} {q : K × V} {key : K} {v : V}
    (hs : sortedKV (A ++ q :: B)) (hA : ∀ p ∈ A, p.1 < key) (hq : key < q.1) :
    insertL key v (A ++ q :: B) = A ++ (key, v) :: q :: B := by
  induction A with
  | nil =>
    simp only [List.nil_append, insertL]
    rw [if_pos hq]
  | cons a A ih =>
    have ha : a.1 < key := hA a (by simp)
    rw [List.cons_append, insertL,
      if_neg (fun h => absurd (lt_trans h ha) (lt_irrefl key)),
      if_neg (by intro h; rw [h] at ha; exact absurd ha (lt_irrefl _))]
    rw [sortedKV, List.cons_append, List.pairwise_cons] at hs
    exact congrArg (a :: ·) (ih hs.2 (fun p hp => hA p (by simp [hp])))

theorem insertL_mid_gt {A B : List (K × V)} {q : K × V} {key : K} {v : V}
    (hs : sortedKV (A ++ q :: B)) (hq : q.1 < key) (hB : ∀ p ∈ B, key < p.1) :
    insertL key v (A ++ q :: B) = A ++ q :: (key, v) :: B := by
  induction A with
  | nil =>
    simp only [List.nil_append, insertL]
    rw [if_neg (fun h => absurd (lt_trans h hq) (lt_irrefl key)),
      if_neg (by intro h; rw [h] at hq; exact absurd hq (lt_irrefl _))]
    rw [insertL_front hB]
  | cons a A ih =>
    have hmid := sortedKV_cons_mid (A := a :: A) (B := B) (q := q) hs
    have ha : a.1 < key := lt_trans (hmid.1 a (by simp)) hq
    rw [List.cons_append, insertL,
      if_neg (fun h => absurd (lt_trans h ha) (lt_irrefl key)),
      if_neg (by intro h; rw [h] at ha; exact absurd ha (lt_irrefl _))]
    rw [sortedKV, List.cons_append, List.pairwise_cons] at hs
    exact congrArg (a :: ·) (ih hs.2)

theorem removeL_mid {A B : List (K × V)} {q : K × V} {key : K}
    (hs : sortedKV (A ++ q :: B)) (hk : q.1 = key) :
    removeL key (A ++ q :: B) = A ++ B := by
  induction A with
  | nil => simp [removeL, hk]
  | cons a A ih =>
    have hmid := sortedKV_cons_mid (A := a :: A) (B := B) (q := q) hs
    have ha : a.1 < key := hk ▸ hmid.1 a (by simp)
    rw [List.cons_append, removeL,
      if_neg (by intro hh; rw [hh] at ha; exact absurd ha (lt_irrefl key))]
    rw [sortedKV, List.cons_append, List.pairwise_cons] at hs
    exact congrArg (a :: ·) (ih hs.2)

theorem removeL_of_not_mem {l : List (K × V)} {key : K}
    (h : key ∉ keysOf l) : removeL key l = l := by
  induction l with
  | nil => rfl
  | cons p rest ih =>
    simp only [keysOf, List.map_cons, List.mem_cons, not_or] at h
    rw [removeL, if_neg (fun he => h.1 he.symm)]
    exact congrArg (p :: ·) (ih (by simpa [keysOf] using h.2))

end ListModel

section MapModel

variable [LinearOrder K]

theorem mem_keysOf_iff {l : List (K × V)} {key : K} :
    key ∈ keysOf l ↔ ∃ p ∈ l, p.1 = key := by
  simp [keysOf, List.mem_map]

theorem splay_decomp (c : K → V → Ordering) (l : Tree K V) (kv : K × V)
    (r : Tree K V) :
    ∃ L q R, splay c (Tree.node l kv r) = .node L q R := by
  cases hsp : splay c (Tree.node l kv r) with
  | nil => exact absurd hsp (splay_ne_nil c)
  | node L q R => exact ⟨L, q, R, rfl⟩

/-- If splaying by a key lands on a root with a different key, the key is
absent. -/
theorem key_not_mem_of_splay_root_ne {t : Tree K V} {key : K}
    {L : Tree K V} {q : K × V} {R : Tree K V} (hs : sortedKV t.toList)
    (hsplay : splay (keyCmp key) t = .node L q R) (hne : q.1 ≠ key) :
    key ∉ keysOf t.toList := by
  intro hmem
  obtain ⟨p, hp, hpk⟩ := mem_keysOf_iff.mp hmem
  obtain ⟨L', q', R', hsp', hq'⟩ := splay_finds_eq (keyCmp key) t hs
    (monoOn_keyCmp key t.toList)
    ⟨p, hp, (keyCmp_eq_iff key p).mpr hpk⟩
  rw [hsplay] at hsp'
  injection hsp' with h1 h2 h3
  exact hne (h2 ▸ (keyCmp_eq_iff key q').mp hq')

/-- `SplayMap::get` against the reference model: the value reported is the
model lookup, and the restructured tree holds exactly the old bindings. -/
theorem get_model (m : SplayMap K V) (key : K) (hs : sortedKV m.root.toList) :
    (m.get key).1 = lookupL key m.root.toList ∧
    (m.get key).2.root.toList = m.root.toList ∧
    (m.get key).2.size = m.size := by
  cases hroot : m.root with
  | nil => simp [SplayMap.get, hroot]
  | node l kv r =>
    obtain ⟨L, q, R, hsplay⟩ := splay_decomp (keyCmp key) l kv r
    have htl : L.toList ++ q :: R.toList = (Tree.node l kv r).toList := by
      have := toList_splay (keyCmp key) (Tree.node l kv r)
      rw [hsplay] at this
      simpa using this
    rw [hroot] at hs
    by_cases hk : key = q.1
    · have hq_mem : q ∈ (Tree.node l kv r).toList := by
        rw [← htl]; simp
      have hlook : lookupL key (Tree.node l kv r).toList = some q.2 :=
        lookupL_of_sorted_mem hs hq_mem hk.symm
      simp only [SplayMap.get, hroot, hsplay]
      rw [if_pos hk]
      refine ⟨hlook.symm, ?_, trivial⟩
      simpa using htl
    · have habs : key ∉ keysOf (Tree.node l kv r).toList :=
        key_not_mem_of_splay_root_ne hs hsplay (fun h => hk h.symm)
      have hlook : lookupL key (Tree.node l kv r).toList = none :=
        lookupL_of_not_mem habs
      simp only [SplayMap.get, hroot, hsplay]
      rw [if_neg hk]
      refine ⟨hlook.symm, ?_, trivial⟩
      simpa using htl

/-- `SplayMap::insert` against the reference model. -/
theorem insert_model (m : SplayMap K V) (key : K) (v : V)
    (hs : sortedKV m.root.toList) :
    (m.insert key v).1 = lookupL key m.root.toList ∧
    (m.insert key v).2.root.toList = insertL key v m.root.toList ∧
    (m.insert key v).2.size =
      (if key ∈ keysOf m.root.toList then m.size else m.size + 1) := by
  cases hroot : m.root with
  | nil => simp [SplayMap.insert, hroot, insertL, keysOf]
  | node l kv r =>
    obtain ⟨L, q, R, hsplay⟩ := splay_decomp (keyCmp key) l kv r
    have htl : L.toList ++ q :: R.toList = (Tree.node l kv r).toList := by
      have := toList_splay (keyCmp key) (Tree.node l kv r)
      rw [hsplay] at this
      simpa using this
    rw [hroot] at hs
    have hs' : sortedKV (L.toList ++ q :: R.toList) := htl ▸ hs
    cases hcmp : compare key q.1
    case eq =>
      have hk : key = q.1 := compare_eq_iff_eq.mp hcmp
      have hq_mem : q ∈ (Tree.node l kv r).toList := by rw [← htl]; simp
      have hlook : lookupL key (Tree.node l kv r).toList = some q.2 :=
        lookupL_of_sorted_mem hs hq_mem hk.symm
      have hmem : key ∈ keysOf (Tree.node l kv r).toList :=
        mem_keysOf_iff.mpr ⟨q, hq_mem, hk.symm⟩
      have hins := insertL_mid_eq (v := v) hs' hk.symm
      rw [← htl] at hlook hmem
      simp [SplayMap.insert, hroot, hsplay, hcmp, hlook, hmem, ← htl, hins]
    case lt =>
      have hk : key < q.1 := compare_lt_iff_lt.mp hcmp
      have habs : key ∉ keysOf (Tree.node l kv r).toList :=
        key_not_mem_of_splay_root_ne hs hsplay
          (fun h => absurd (h ▸ hk) (lt_irrefl _))
      have hlook : lookupL key (Tree.node l kv r).toList = none :=
        lookupL_of_not_mem habs
      obtain ⟨L', q', R', hsp', himp1, himp2⟩ :=
        splay_sides (keyCmp key) (l := l) (v := kv) (r := r) hs
          (monoOn_keyCmp key _)
      rw [hsplay] at hsp'
      injection hsp' with h1 h2 h3
      subst h1; subst h2; subst h3
      have hL : ∀ p ∈ L.toList, p.1 < key := by
        intro p hp
        have := himp1 (by simpa [keyCmp] using hcmp) p hp
        exact compare_gt_iff_gt.mp (by simpa [keyCmp] using this)
      have hins := insertL_mid_lt (v := v) hs' hL hk
      rw [← htl] at hlook habs
      simp [SplayMap.insert, hroot, hsplay, hcmp, hlook, habs, ← htl, hins]
    case gt =>
      have hk : q.1 < key := compare_gt_iff_gt.mp hcmp
      have habs : key ∉ keysOf (Tree.node l kv r).toList :=
        key_not_mem_of_splay_root_ne hs hsplay
          (fun h => absurd (h ▸ hk) (lt_irrefl _))
      have hlook : lookupL key (Tree.node l kv r).toList = none :=
        lookupL_of_not_mem habs
      obtain ⟨L', q', R', hsp', himp1, himp2⟩ :=
        splay_sides (keyCmp key) (l := l) (v := kv) (r := r) hs
          (monoOn_keyCmp key _)
      rw [hsplay] at hsp'
      injection hsp' with h1 h2 h3
      subst h1; subst h2; subst h3
      have hR : ∀ p ∈ R.toList, key < p.1 := by
        intro p hp
        have := himp2 (by simpa [keyCmp] using hcmp) p hp
        exact compare_lt_iff_lt.mp (by simpa [keyCmp] using this)
      have hins := insertL_mid_gt (v := v) hs' hk hR
      rw [← htl] at hlook habs
      simp [SplayMap.insert, hroot, hsplay, hcmp, hlook, habs, ← htl, hins]

/-- `SplayMap::remove` against the reference model. -/
theorem remove_model (m : SplayMap K V) (key : K)
    (hs : sortedKV m.root.toList) :
    (m.remove key).1 = lookupL key m.root.toList ∧
    (m.remove key).2.root.toList = removeL key m.root.toList ∧
    (m.remove key).2.size =
      (if key ∈ keysOf m.root.toList then m.size - 1 else m.size) := by
  cases hroot : m.root with
  | nil => simp [SplayMap.remove, hroot, removeL, keysOf]
  | node l kv r =>
    obtain ⟨L, q, R, hsplay⟩ := splay_decomp (keyCmp key) l kv r
    have htl : L.toList ++ q :: R.toList = (Tree.node l kv r).toList := by
      have := toList_splay (keyCmp key) (Tree.node l kv r)
      rw [hsplay] at this
      simpa using this
    rw [hroot] at hs
    have hs' : sortedKV (L.toList ++ q :: R.toList) := htl ▸ hs
    by_cases hk : key = q.1
    · subst hk
      have hq_mem : q ∈ (Tree.node l kv r).toList := by rw [← htl]; simp
      have hlook : lookupL q.1 (Tree.node l kv r).toList = some q.2 :=
        lookupL_of_sorted_mem hs hq_mem rfl
      have hmem : q.1 ∈ keysOf (Tree.node l kv r).toList :=
        mem_keysOf_iff.mpr ⟨q, hq_mem, rfl⟩
      have hrem := removeL_mid hs' rfl
      have hLgt : ∀ p ∈ L.toList, keyCmp q.1 p.1 p.2 = .gt := by
        intro p hp
        have hplt : p.1 < q.1 := (sortedKV_cons_mid hs').1 p hp
        simpa [keyCmp, compare_gt_iff_gt] using hplt
      cases L with
      | nil =>
        simp only [toList_nil, List.nil_append] at htl hrem
        have hrem' : removeL q.1 (Tree.node l kv r).toList = R.toList := by
          rw [← htl]; exact hrem
        simp only [toList_node] at hlook hmem hrem'
        simp [SplayMap.remove, hroot, hsplay, hlook, hmem, hrem']
      | node a x b =>
        obtain ⟨Ll, mq, Rr, hsp2⟩ := splay_decomp (keyCmp q.1) a x b
        have hsL : sortedKV (Tree.node a x b).toList := by
          rw [sortedKV] at hs' ⊢
          exact (List.pairwise_append.mp hs').1
        have htl2 : Ll.toList ++ mq :: Rr.toList = (Tree.node a x b).toList := by
          have := toList_splay (keyCmp q.1) (Tree.node a x b)
          rw [hsp2] at this
          simpa using this
        obtain ⟨Ll', mq', Rr', hsp2', himp1, himp2⟩ :=
          splay_sides (keyCmp q.1) (l := a) (v := x) (r := b) hsL
            (monoOn_keyCmp q.1 _)
        rw [hsp2] at hsp2'
        injection hsp2' with h1 h2 h3
        subst h1; subst h2; subst h3
        have hmq_gt : keyCmp q.1 mq.1 mq.2 = .gt := by
          have : mq ∈ (Tree.node a x b).toList := by rw [← htl2]; simp
          exact hLgt mq this
        have hRr : Rr = .nil := by
          rw [← toList_eq_nil]
          by_contra hne
          obtain ⟨p, hp⟩ := List.exists_mem_of_ne_nil _ hne
          have h1 := himp2 hmq_gt p hp
          have h2 := hLgt p (by rw [← htl2]; simp [hp])
          rw [h1] at h2
          cases h2
        rw [hRr] at htl2
        simp only [toList_nil, List.append_nil] at htl2
        have hfinal : (Tree.node Ll mq R).toList =
            removeL q.1 (Tree.node l kv r).toList := by
          rw [← htl, hrem, ← htl2]
          simp
        simp only [toList_node] at hlook hmem hfinal
        simp [SplayMap.remove, hroot, hsplay, hsp2, hlook, hmem, hfinal]
    · have habs : key ∉ keysOf (Tree.node l kv r).toList :=
        key_not_mem_of_splay_root_ne hs hsplay (fun h => hk h.symm)
      have hlook : lookupL key (Tree.node l kv r).toList = none :=
        lookupL_of_not_mem habs
      have hrem := removeL_of_not_mem habs
      have htl' : (Tree.node L q R).toList = (Tree.node l kv r).toList := by
        simpa using htl
      simp only [toList_node] at hlook habs hrem htl'
      simp [SplayMap.remove, hroot, hsplay, hk, hlook, habs, hrem, htl']

end MapModel

section Iterate

/-- The rotation loop of `Iterator::next` for `IntoIter`: while the working
node has a left child, rotate it up (`cur.left = node.pop_right(); node.right
= Some(cur)`); when none is left, yield the pair and continue in the right
child. -/
def nextGo : Tree K V → K × V → Tree K V → (K × V) × Tree K V
  | .nil, kv, r => (kv, r)
  | .node ll lkv lr, kv, r => nextGo ll lkv (.node lr kv r)

/-- The mirror-image rotation loop of `DoubleEndedIterator::next_back`. -/
def nextBackGo : Tree K V → K × V → Tree K V → (K × V) × Tree K V
  | .nil, kv, l => (kv, l)
  | .node rl rkv rr, kv, l => nextBackGo rr rkv (.node l kv rl)

/-- The consuming iterator `IntoIter`: current tree plus remaining count. -/
structure IntoIter (K V : Type) where
  cur : Tree K V
  remaining : Nat
deriving DecidableEq, Repr

/-- `SplayMap::into_iter`. -/
def SplayMap.into_iter (m : SplayMap K V) : IntoIter K V := ⟨m.root, m.size⟩

/-- `Iterator::next` for `IntoIter`. -/
def IntoIter.next (it : IntoIter K V) : Option ((K × V) × IntoIter K V) :=
  match it.cur with
  | .nil => none
  | .node l kv r =>
    let s := nextGo l kv r
    some (s.1, ⟨s.2, it.remaining - 1⟩)

/-- `DoubleEndedIterator::next_back` for `IntoIter`. -/
def IntoIter.next_back (it : IntoIter K V) : Option ((K × V) × IntoIter K V) :=
  match it.cur with
  | .nil => none
  | .node l kv r =>
    let s := nextBackGo r kv l
    some (s.1, ⟨s.2, it.remaining - 1⟩)

theorem nextGo_toList (l : Tree K V) (kv : K × V) (r : Tree K V) :
    (nextGo l kv r).1 :: (nextGo l kv r).2.toList =
      (Tree.node l kv r).toList := by
  induction l generalizing kv r with
  | nil => simp [nextGo]
  | node ll lkv lr ihl ihr =>
    rw [nextGo, ihl]
    simp

theorem nextBackGo_toList (r : Tree K V) (kv : K × V) (l : Tree K V) :
    (nextBackGo r kv l).2.toList ++ [(nextBackGo r kv l).1] =
      (Tree.node l kv r).toList := by
  induction r generalizing kv l with
  | nil => simp [nextBackGo]
  | node rl rkv rr ihl ihr =>
    rw [nextBackGo, ihr]
    simp

/-- Run a consuming iterator under an interleaving schedule: `true` takes
from the back, `false` from the front. -/
def runIter : IntoIter K V → List Bool → List (K × V) × IntoIter K V
  | it, [] => ([], it)
  | it, f :: fs =>
    match (cond f it.next_back it.next) with
    | none => ([], it)
    | some (p, it') =>
      let rest := runIter it' fs
      (p :: rest.1, rest.2)

/-- Whatever the interleaving, the pairs yielded so far together with the
pairs still inside the iterator are a permutation of the original
contents: nothing is duplicated, nothing is dropped. -/
theorem runIter_perm (fs : List Bool) : ∀ it : IntoIter K V,
    ((runIter it fs).1 ++ (runIter it fs).2.cur.toList).Perm it.cur.toList := by
  induction fs with
  | nil => intro it; simp [runIter]
  | cons f fs ih =>
    intro it
    cases hc : it.cur with
    | nil =>
      cases f <;>
        simp [runIter, IntoIter.next, IntoIter.next_back, hc, cond]
    | node l kv r =>
      cases f
      · have hlist := nextGo_toList l kv r
        simp only [runIter, IntoIter.next, hc, cond_false, cond_true]
        refine List.Perm.trans (List.Perm.cons _ (ih _)) ?_
        rw [← hlist]
      · have hlist := nextBackGo_toList r kv l
        simp only [runIter, IntoIter.next_back, hc, cond_false, cond_true]
        refine List.Perm.trans (List.Perm.cons _ (ih _)) ?_
        rw [← hlist]
        exact (List.perm_append_singleton _ _).symm

/-- The remaining-count bookkeeping of `IntoIter` stays exact under any
interleaving of `next` and `next_back`. -/
theorem runIter_count (fs : List Bool) : ∀ it : IntoIter K V,
    it.remaining = it.cur.toList.length →
    (runIter it fs).2.remaining = (runIter it fs).2.cur.toList.length ∧
    (runIter it fs).1.length + (runIter it fs).2.cur.toList.length =
      it.cur.toList.length := by
  induction fs with
  | nil => intro it h; simpa [runIter] using h
  | cons f fs ih =>
    intro it h
    cases hc : it.cur with
    | nil =>
      cases f <;>
        simpa [runIter, IntoIter.next, IntoIter.next_back, hc, cond] using h
    | node l kv r =>
      cases f
      · have hlist := nextGo_toList l kv r
        have hlen : (nextGo l kv r).2.toList.length + 1 =
            (Tree.node l kv r).toList.length := by
          rw [← hlist]; simp
        have hrec := ih ⟨(nextGo l kv r).2, it.remaining - 1⟩
          (by simp only; rw [h, hc]; omega)
        simp only [runIter, IntoIter.next, hc, cond_false, cond_true]
        refine ⟨hrec.1, ?_⟩
        have h2 := hrec.2
        simp only [List.length_cons, hc] at h2 ⊢
        omega
      · have hlist := nextBackGo_toList r kv l
        have hlen : (nextBackGo r kv l).2.toList.length + 1 =
            (Tree.node l kv r).toList.length := by
          rw [← hlist]; simp
        have hrec := ih ⟨(nextBackGo r kv l).2, it.remaining - 1⟩
          (by simp only; rw [h, hc]; omega)
        simp only [runIter, IntoIter.next_back, hc, cond_false, cond_true]
        refine ⟨hrec.1, ?_⟩
        have h2 := hrec.2
        simp only [List.length_cons, hc] at h2 ⊢
        omega

/-- Draining forward only yields exactly the in-order contents. -/
theorem runIter_forward : ∀ (n : Nat) (it : IntoIter K V),
    it.cur.toList.length = n →
    (runIter it (List.replicate n false)).1 = it.cur.toList := by
  intro n
  induction n with
  | zero =>
    intro it h
    rw [toList_eq_nil.mp (List.length_eq_zero.mp h)]
    simp [runIter]
  | succ n ih =>
    intro it h
    cases hc : it.cur with
    | nil => rw [hc] at h; simp at h
    | node l kv r =>
      have hlist := nextGo_toList l kv r
      simp only [List.replicate, runIter, IntoIter.next, hc, cond_false, cond_true]
      have hlen : (nextGo l kv r).2.toList.length = n := by
        rw [hc] at h
        rw [← hlist] at h
        simpa using h
      rw [← hlist]
      exact congrArg _ (ih ⟨(nextGo l kv r).2, it.remaining - 1⟩ hlen)

/-- Draining backward only yields exactly the reversed in-order contents. -/
theorem runIter_backward : ∀ (n : Nat) (it : IntoIter K V),
    it.cur.toList.length = n →
    (runIter it (List.replicate n true)).1 = it.cur.toList.reverse := by
  intro n
  induction n with
  | zero =>
    intro it h
    rw [toList_eq_nil.mp (List.length_eq_zero.mp h)]
    simp [runIter]
  | succ n ih =>
    intro it h
    cases hc : it.cur with
    | nil => rw [hc] at h; simp at h
    | node l kv r =>
      have hlist := nextBackGo_toList r kv l
      simp only [List.replicate, runIter, IntoIter.next_back, hc, cond_false, cond_true]
      have hlen : (nextBackGo r kv l).2.toList.length = n := by
        rw [hc] at h
        rw [← hlist] at h
        simpa using h
      rw [← hlist]
      rw [List.reverse_append]
      simp only [List.reverse_cons, List.reverse_nil, List.nil_append,
        List.singleton_append]
      exact congrArg _ (ih ⟨(nextBackGo r kv l).2, it.remaining - 1⟩ hlen)

end Iterate

section OpsModel

variable [LinearOrder K]

theorem lookupL_cons {p : K × V} {rest : List (K × V)} {key : K} :
    lookupL key (p :: rest) =
      if p.1 = key then some p.2 else lookupL key rest := by
  simp only [lookupL, List.find?]
  by_cases h : p.1 = key
  · rw [show decide (p.1 = key) = true from decide_eq_true h, if_pos h]
    rfl
  · rw [show decide (p.1 = key) = false from decide_eq_false h, if_neg h]

theorem length_insertL {l : List (K × V)} {key : K} {v : V}
    (hs : sortedKV l) :
    (insertL key v l).length =
      if key ∈ keysOf l then l.length else l.length + 1 := by
  induction l with
  | nil => simp [insertL, keysOf]
  | cons p rest ih =>
    rw [sortedKV_cons] at hs
    rw [insertL]
    by_cases h1 : key < p.1
    · rw [if_pos h1]
      have : key ∉ keysOf (p :: rest) := by
        simp only [keysOf, List.map_cons, List.mem_cons, not_or]
        refine ⟨fun h => absurd (h ▸ h1) (lt_irrefl _), ?_⟩
        simp only [List.mem_map, not_exists, not_and]
        intro q hq he
        exact absurd (he ▸ lt_trans h1 (hs.1 q hq)) (lt_irrefl _)
      rw [if_neg this]
      simp
    · rw [if_neg h1]
      by_cases h2 : key = p.1
      · rw [if_pos h2]
        have : key ∈ keysOf (p :: rest) := by simp [keysOf, h2]
        rw [if_pos this]
        simp
      · rw [if_neg h2]
        have hmem : key ∈ keysOf (p :: rest) ↔ key ∈ keysOf rest := by
          simp only [keysOf, List.map_cons, List.mem_cons]
          exact ⟨fun h => h.resolve_left h2, fun h => Or.inr h⟩
        by_cases h3 : key ∈ keysOf rest
        · rw [if_pos (hmem.mpr h3)]
          simp only [List.length_cons, ih hs.2, if_pos h3]
        · rw [if_neg (fun h => h3 (hmem.mp h))]
          simp only [List.length_cons, ih hs.2, if_neg h3]

theorem length_removeL {l : List (K × V)} {key : K}
    (hs : sortedKV l) :
    (removeL key l).length =
      if key ∈ keysOf l then l.length - 1 else l.length := by
  induction l with
  | nil => simp [removeL, keysOf]
  | cons p rest ih =>
    rw [sortedKV_cons] at hs
    rw [removeL]
    by_cases h1 : p.1 = key
    · rw [if_pos h1]
      have : key ∈ keysOf (p :: rest) := by simp [keysOf, h1]
      rw [if_pos this]
      simp
    · rw [if_neg h1]
      have hmem : key ∈ keysOf (p :: rest) ↔ key ∈ keysOf rest := by
        simp only [keysOf, List.map_cons, List.mem_cons]
        exact ⟨fun h => h.resolve_left (fun h => h1 h.symm),
          fun h => Or.inr h⟩
      by_cases h3 : key ∈ keysOf rest
      · rw [if_pos (hmem.mpr h3)]
        have hpos : 0 < rest.length := by
          obtain ⟨q, hq, _⟩ := mem_keysOf_iff.mp h3
          exact List.length_pos.mpr (fun h => by simp [h] at hq)
        simp only [List.length_cons, ih hs.2, if_pos h3]
        omega
      · rw [if_neg (fun h => h3 (hmem.mp h))]
        simp only [List.length_cons, ih hs.2, if_neg h3]

/-- Model-level law: after an insert, the looked-up value for the inserted
key is the new value and all other keys are unaffected. -/
theorem lookupL_insertL {l : List (K × V)} (hs : sortedKV l)
    (k' k : K) (v : V) :
    lookupL k' (insertL k v l) =
      if k' = k then some v else lookupL k' l := by
  induction l with
  | nil =>
    simp only [insertL, lookupL_cons, lookupL_nil]
    by_cases h : k' = k
    · subst h; simp
    · have ha : ¬ k = k' := fun hh => h hh.symm
      simp [h, ha]
  | cons p rest ih =>
    rw [sortedKV_cons] at hs
    rw [insertL]
    by_cases h1 : k < p.1
    · rw [if_pos h1]
      simp only [lookupL_cons]
      by_cases h : k' = k
      · subst h; simp
      · have ha : ¬ k = k' := fun hh => h hh.symm
        simp [h, ha]
    · rw [if_neg h1]
      by_cases h2 : k = p.1
      · rw [if_pos h2]
        simp only [lookupL_cons]
        by_cases h : k' = k
        · subst h; simp [h2]
        · have ha : ¬ k = k' := fun hh => h hh.symm
          have hb : ¬ p.1 = k' := fun hh => h (h2.trans hh).symm
          simp [h, ha, hb]
      · rw [if_neg h2]
        simp only [lookupL_cons, ih hs.2]
        by_cases h : k' = k
        · have hb : ¬ p.1 = k' := fun hh => h2 (hh.trans h).symm
          have hc : ¬ p.1 = k := fun hh => h2 hh.symm
          simp [h, hb, hc]
        · simp [h]

/-- Model-level law: after a removal, the removed key looks up to nothing
and all other keys are unaffected. -/
theorem lookupL_removeL {l : List (K × V)} (hs : sortedKV l) (k' k : K) :
    lookupL k' (removeL k l) =
      if k' = k then none else lookupL k' l := by
  induction l with
  | nil => by_cases h : k' = k <;> simp [removeL, h]
  | cons p rest ih =>
    rw [sortedKV_cons] at hs
    rw [removeL]
    by_cases h1 : p.1 = k
    · rw [if_pos h1]
      by_cases h : k' = k
      · subst h
        rw [if_pos rfl]
        have : k' ∉ keysOf rest := by
          intro hm
          obtain ⟨q, hq, hqk⟩ := mem_keysOf_iff.mp hm
          exact absurd (hqk ▸ hs.1 q hq) (h1 ▸ lt_irrefl _)
        exact lookupL_of_not_mem this
      · rw [if_neg h, lookupL_cons, if_neg (fun hh => h (h1 ▸ hh).symm)]
    · rw [if_neg h1, lookupL_cons, ih hs.2, lookupL_cons]
      by_cases h : k' = k
      · subst h
        rw [if_pos rfl, if_pos rfl, if_neg (fun hh => h1 hh)]
      · rw [if_neg h, if_neg h]

/-- A mutation step on the map: insert or remove. -/
inductive MapOp (K V : Type) where
  | ins : K → V → MapOp K V
  | del : K → MapOp K V

/-- Apply one mutation to a `SplayMap`. -/
def applyMapOp (m : SplayMap K V) : MapOp K V → SplayMap K V
  | .ins k v => (m.insert k v).2
  | .del k => (m.remove k).2

/-- A `SplayMap` built from scratch by a sequence of inserts and removes. -/
def buildMap (ops : List (MapOp K V)) : SplayMap K V :=
  ops.foldl applyMapOp .new

/-- The reference ordered-map model: a sorted association list. -/
def stepModel (l : List (K × V)) : MapOp K V → List (K × V)
  | .ins k v => insertL k v l
  | .del k => removeL k l

/-- Run the reference model over an operation sequence. -/
def refModel (ops : List (MapOp K V)) : List (K × V) :=
  ops.foldl stepModel []

/-- The splay map built by any operation sequence holds exactly the
reference model's bindings, in sorted order, with an exact size field. -/
theorem buildMap_model (ops : List (MapOp K V)) :
    (buildMap ops).root.toList = refModel ops ∧
    sortedKV (refModel ops) ∧
    (buildMap ops).size = (refModel ops).length := by
  suffices h : ∀ (ops : List (MapOp K V)) (m : SplayMap K V),
      sortedKV m.root.toList → m.size = m.root.toList.length →
      (ops.foldl applyMapOp m).root.toList =
        ops.foldl stepModel m.root.toList ∧
      sortedKV (ops.foldl stepModel m.root.toList) ∧
      (ops.foldl applyMapOp m).size =
        (ops.foldl stepModel m.root.toList).length by
    have := h ops .new (by simp [SplayMap.new, sortedKV, Tree.toList])
      (by simp [SplayMap.new, Tree.toList])
    simpa [buildMap, refModel, SplayMap.new, Tree.toList] using this
  intro ops
  induction ops with
  | nil => intro m h1 h2; exact ⟨rfl, h1, h2⟩
  | cons op ops ih =>
    intro m h1 h2
    cases op with
    | ins k v =>
      have him := insert_model m k v h1
      have hsort : sortedKV (m.insert k v).2.root.toList := by
        rw [him.2.1]; exact sortedKV_insertL h1
      have hsize : (m.insert k v).2.size = (m.insert k v).2.root.toList.length := by
        rw [him.2.2, him.2.1, length_insertL h1, h2]
      have hrec := ih (m.insert k v).2 hsort hsize
      simp only [List.foldl_cons, applyMapOp, stepModel]
      rw [← him.2.1]
      exact hrec
    | del k =>
      have him := remove_model m k h1
      have hsort : sortedKV (m.remove k).2.root.toList := by
        rw [him.2.1]; exact sortedKV_removeL h1
      have hsize : (m.remove k).2.size = (m.remove k).2.root.toList.length := by
        rw [him.2.2, him.2.1, length_removeL h1, h2]
      have hrec := ih (m.remove k).2 hsort hsize
      simp only [List.foldl_cons, applyMapOp, stepModel]
      rw [← him.2.1]
      exact hrec

end OpsModel

section LowerBound

theorem find?_append_of_none {α : Type} {f : α → Bool} {l1 l2 : List α}
    (h : l1.find? f = none) : (l1 ++ l2).find? f = l2.find? f := by
  induction l1 with
  | nil => rfl
  | cons a l1 ih =>
    by_cases hb : f a
    · rw [List.find?_cons_of_pos _ hb] at h
      cases h
    · rw [List.find?_cons_of_neg _ hb] at h
      rw [List.cons_append, List.find?_cons_of_neg _ hb]
      exact ih h

theorem find?_append_of_some {α : Type} {f : α → Bool} {l1 l2 : List α}
    {a : α} (h : l1.find? f = some a) : (l1 ++ l2).find? f = some a := by
  induction l1 with
  | nil => cases h
  | cons b l1 ih =>
    by_cases hb : f b
    · rw [List.find?_cons_of_pos _ hb] at h
      rw [List.cons_append, List.find?_cons_of_pos _ hb]
      exact h
    · rw [List.find?_cons_of_neg _ hb] at h
      rw [List.cons_append, List.find?_cons_of_neg _ hb]
      exact ih h

theorem lower_bound_with_mem (c : K → V → Ordering) :
    ∀ (t : Tree K V) (p : K × V), lower_bound_with c t = some p →
      p ∈ t.toList := by
  intro t
  induction t with
  | nil => intro p h; cases h
  | node l kv r ihl ihr =>
    intro p h
    rw [lower_bound_with] at h
    cases hc : c kv.1 kv.2 <;> rw [hc] at h
    · cases hl : lower_bound_with c l with
      | none =>
        rw [hl] at h
        injection h with h
        simp [← h]
      | some q =>
        rw [hl] at h
        injection h with h
        subst h
        simp [ihl q hl]
    · injection h with h; simp [← h]
    · simp [ihr p h]

/-- If no `Greater`-answering binding is maximal, the read-only lower-bound
search always finds something — in particular when the terminal band, which
never answers `Greater`, has the greatest key. -/
theorem lower_bound_with_some [LinearOrder K] (c : K → V → Ordering) :
    ∀ t : Tree K V, sortedKV t.toList → t ≠ .nil →
      (∀ p ∈ t.toList, c p.1 p.2 = .gt → ∃ q ∈ t.toList, p.1 < q.1) →
      ∃ p, lower_bound_with c t = some p := by
  intro t
  induction t with
  | nil => intro _ h; exact absurd rfl h
  | node l kv r ihl ihr =>
    intro hs _ hmax
    rw [lower_bound_with]
    cases hc : c kv.1 kv.2
    · cases lower_bound_with c l with
      | none => exact ⟨kv, rfl⟩
      | some q => exact ⟨q, rfl⟩
    · exact ⟨kv, rfl⟩
    · have hmid : ∀ p ∈ l.toList, p.1 < kv.1 := by
        intro p hp
        have := (sortedKV_cons_mid (A := l.toList) (B := r.toList)
          (q := kv) (by simpa using hs)).1
        exact this p hp
      have hafter : ∀ p ∈ r.toList, kv.1 < p.1 := by
        intro p hp
        have := (sortedKV_cons_mid (A := l.toList) (B := r.toList)
          (q := kv) (by simpa using hs)).2
        exact this p hp
      obtain ⟨q, hq, hqlt⟩ := hmax kv (by simp) hc
      have hq_r : q ∈ r.toList := by
        simp only [toList_node, List.mem_append, List.mem_cons] at hq
        rcases hq with h | h | h
        · exact absurd (lt_trans (hmid q h) hqlt) (lt_irrefl _)
        · subst h; exact absurd hqlt (lt_irrefl _)
        · exact h
      have hr_ne : r ≠ .nil := by
        intro h
        rw [h] at hq_r
        simp at hq_r
      have hsr : sortedKV r.toList := by
        rw [sortedKV] at hs ⊢
        simp only [toList_node] at hs
        have := (List.pairwise_append.mp hs).2.1
        exact (List.pairwise_cons.mp this).2
      obtain ⟨p, hp⟩ := ihr hsr hr_ne (by
        intro p hp hpc
        obtain ⟨q', hq', hq'lt⟩ := hmax p (by simp [hp]) hpc
        refine ⟨q', ?_, hq'lt⟩
        simp only [toList_node, List.mem_append, List.mem_cons] at hq'
        rcases hq' with h | h | h
        · exact absurd (lt_trans (lt_trans (hmid q' h) (hafter p hp)) hq'lt)
            (lt_irrefl _)
        · subst h
          exact absurd (lt_trans (hafter p hp) hq'lt) (lt_irrefl _)
        · exact h)
      exact ⟨p, by rw [hp]⟩

/-- With a monotone comparator having at most one `Equal` binding, the
read-only lower-bound search returns exactly the lowest-keyed binding not
answering `Greater`. -/
theorem lower_bound_with_find [LinearOrder K] (c : K → V → Ordering) :
    ∀ t : Tree K V, sortedKV t.toList → MonoOn c t.toList →
      (∀ p ∈ t.toList, ∀ q ∈ t.toList,
        c p.1 p.2 = .eq → c q.1 q.2 = .eq → p = q) →
      lower_bound_with c t =
        t.toList.find? (fun p => decide (c p.1 p.2 ≠ .gt)) := by
  intro t
  induction t with
  | nil => intro _ _ _; rfl
  | node l kv r ihl ihr =>
    intro hs hm huniq
    have hsl : sortedKV l.toList := by
      rw [sortedKV] at hs ⊢
      simp only [toList_node] at hs
      exact (List.pairwise_append.mp hs).1
    have hsr : sortedKV r.toList := by
      rw [sortedKV] at hs ⊢
      simp only [toList_node] at hs
      have := (List.pairwise_append.mp hs).2.1
      exact (List.pairwise_cons.mp this).2
    have hmid : ∀ p ∈ l.toList, p.1 < kv.1 := by
      intro p hp
      exact (sortedKV_cons_mid (A := l.toList) (B := r.toList)
        (q := kv) (by simpa using hs)).1 p hp
    have hafter : ∀ p ∈ r.toList, kv.1 < p.1 := by
      intro p hp
      exact (sortedKV_cons_mid (A := l.toList) (B := r.toList)
        (q := kv) (by simpa using hs)).2 p hp
    have hml : MonoOn c l.toList := by
      intro p hp q hq h
      exact hm p (by simp [hp]) q (by simp [hq]) h
    have hmr : MonoOn c r.toList := by
      intro p hp q hq h
      exact hm p (by simp [hp]) q (by simp [hq]) h
    have hul : ∀ p ∈ l.toList, ∀ q ∈ l.toList,
        c p.1 p.2 = .eq → c q.1 q.2 = .eq → p = q := by
      intro p hp q hq h1 h2
      exact huniq p (by simp [hp]) q (by simp [hq]) h1 h2
    have hur : ∀ p ∈ r.toList, ∀ q ∈ r.toList,
        c p.1 p.2 = .eq → c q.1 q.2 = .eq → p = q := by
      intro p hp q hq h1 h2
      exact huniq p (by simp [hp]) q (by simp [hq]) h1 h2
    rw [lower_bound_with]
    simp only [toList_node]
    cases hc : c kv.1 kv.2
    case lt =>
      -- everything at or right of kv answers Less; the result is decided
      -- by the left subtree, with kv as the fallback
      rw [ihl hsl hml hul]
      cases hfl : l.toList.find? (fun p => decide (c p.1 p.2 ≠ .gt)) with
      | none =>
        rw [find?_append_of_none hfl,
          List.find?_cons_of_pos _ (by simp [hc])]
      | some q =>
        rw [find?_append_of_some hfl]
    case eq =>
      -- all strictly smaller bindings answer Greater (a second Equal is
      -- impossible, a Less would break monotonicity)
      have hnone : l.toList.find? (fun p => decide (c p.1 p.2 ≠ .gt)) = none := by
        rw [List.find?_eq_none]
        intro p hp
        simp only [decide_not, Bool.not_eq_true', decide_eq_false_iff_not,
          not_not]
        have hr := hm p (by simp [hp]) kv (by simp) (hmid p hp)
        rw [hc] at hr
        cases hcp : c p.1 p.2
        · rw [hcp] at hr; simp [rank] at hr
        · exact absurd (huniq p (by simp [hp]) kv (by simp) hcp hc)
            (by intro h; rw [h] at hp; exact absurd (hmid kv hp) (lt_irrefl _))
        · rfl
      rw [find?_append_of_none hnone,
        List.find?_cons_of_pos _ (by simp [hc])]
    case gt =>
      have hnone : l.toList.find? (fun p => decide (c p.1 p.2 ≠ .gt)) = none := by
        rw [List.find?_eq_none]
        intro p hp
        simp only [decide_not, Bool.not_eq_true', decide_eq_false_iff_not,
          not_not]
        exact mono_gt_of_gt hm (by simp [hp]) (by simp) (hmid p hp) hc
      rw [ihr hsr hmr hur, find?_append_of_none hnone,
        List.find?_cons_of_neg _ (by simp [hc])]

end LowerBound

section GetWithMut

variable [LinearOrder K]

theorem get_with_mut_preserves (c : K → V → Ordering) (m : SplayMap K V) :
    (SplayMap.get_with_mut c m).2.root.toList = m.root.toList ∧
    (SplayMap.get_with_mut c m).2.size = m.size := by
  cases hroot : m.root with
  | nil => simp [SplayMap.get_with_mut, hroot]
  | node l kv r =>
    obtain ⟨L, q, R, hsplay⟩ := splay_decomp c l kv r
    have htl := toList_splay c (Tree.node l kv r)
    rw [hsplay] at htl
    simp [SplayMap.get_with_mut, hroot, hsplay, htl]

theorem get_with_mut_hit (c : K → V → Ordering) (m : SplayMap K V)
    (hs : sortedKV m.root.toList) (hm : MonoOn c m.root.toList)
    (he : ∃ p ∈ m.root.toList, c p.1 p.2 = .eq) :
    ∃ L q R, SplayMap.get_with_mut c m =
        (some q, ⟨.node L q R, m.size⟩) ∧
      c q.1 q.2 = .eq ∧ L.toList ++ q :: R.toList = m.root.toList := by
  cases hroot : m.root with
  | nil => rw [hroot] at he; simp at he
  | node l kv r =>
    rw [hroot] at he hs hm
    obtain ⟨L, q, R, hsplay, hq⟩ :=
      splay_finds_eq c (Tree.node l kv r) hs hm he
    have htl := toList_splay c (Tree.node l kv r)
    rw [hsplay] at htl
    refine ⟨L, q, R, ?_, hq, by simpa using htl⟩
    simp [SplayMap.get_with_mut, hroot, hsplay, hq]

theorem get_with_mut_miss (c : K → V → Ordering) (m : SplayMap K V)
    (hno : ∀ p ∈ m.root.toList, c p.1 p.2 ≠ .eq) :
    (SplayMap.get_with_mut c m).1 = none := by
  cases hroot : m.root with
  | nil => simp [SplayMap.get_with_mut, hroot]
  | node l kv r =>
    obtain ⟨L, q, R, hsplay⟩ := splay_decomp c l kv r
    have htl := toList_splay c (Tree.node l kv r)
    rw [hsplay] at htl
    have hq : q ∈ m.root.toList := by
      rw [hroot, ← htl]; simp
    simp [SplayMap.get_with_mut, hroot, hsplay, hno q hq]

theorem get_with_mut_some (c : K → V → Ordering) (m : SplayMap K V)
    {q : K × V} (h : (SplayMap.get_with_mut c m).1 = some q) :
    q ∈ m.root.toList ∧ c q.1 q.2 = .eq := by
  revert h
  cases hroot : m.root with
  | nil => intro h; simp [SplayMap.get_with_mut, hroot] at h
  | node l kv r =>
    obtain ⟨L, q', R, hsplay⟩ := splay_decomp c l kv r
    have htl := toList_splay c (Tree.node l kv r)
    rw [hsplay] at htl
    intro h
    by_cases hq' : c q'.1 q'.2 = .eq
    · simp only [SplayMap.get_with_mut, hroot, hsplay, if_pos hq'] at h
      injection h with h
      subst h
      exact ⟨by rw [← htl]; simp, hq'⟩
    · simp only [SplayMap.get_with_mut, hroot, hsplay, if_neg hq'] at h
      cases h

end GetWithMut

/-! ## `exclusions.rs` -/

/-- `MAX_AU = Int(i32::MAX)`, the open-end sentinel.  The length unit
`Int(i32)` is modelled as a plain `Int` throughout (no scenario verified
here exercises `i32` wrap-around). -/
def MAX_AU : Int := 2147483647

/-- `Band`: a vertical interval of constant intrusion.  `left`/`right` hold
the intrusions as negated magnitudes, exactly as stored by the source. -/
structure Band where
  left : Int
  right : Int
  length : Int
deriving DecidableEq, Repr

/-- `Band::new`. -/
def Band.new (left right length : Int) : Band := ⟨left, right, length⟩

/-- `Band::available_size`. -/
def Band.available_size (b : Band) (inline_size : Int) : Int :=
  inline_size + b.left + b.right

/-- `Side`. -/
inductive Side where
  | Left
  | Right
deriving DecidableEq, Repr

/-- `Band::get`. -/
def Band.get (b : Band) (side : Side) : Int :=
  match side with
  | .Left => b.left
  | .Right => b.right

/-- `Band::set`. -/
def Band.set (b : Band) (side : Side) (inline_size : Int) : Band :=
  match side with
  | .Left => { b with left := inline_size }
  | .Right => { b with right := inline_size }

/-- `Point`. -/
structure Point where
  inline : Int
  block : Int
deriving DecidableEq, Repr

/-- `Size`. -/
structure Size where
  inline : Int
  block : Int
deriving DecidableEq, Repr

/-- `Exclusions`: the band map plus the fixed inline size. -/
structure Exclusions where
  bands : SplayMap Int Band
  inline_size : Int
deriving DecidableEq, Repr

/-- `compare_inline_size` of `exclusions.rs`.  Note the direction: a band
the requested `exclusion_size.inline` FITS into answers `Less`; a band it
does not fit into answers `Equal` when the band is the open-ended one
(`band_block_start + band.length == MAX_AU`) and `Greater` otherwise. -/
def compare_inline_size (band_block_start : Int) (band : Band)
    (exclusion_size : Size) (inline_size : Int) : Ordering :=
  match compare exclusion_size.inline (band.available_size inline_size) with
  | .lt => .lt
  | .eq => .lt
  | .gt => if band_block_start + band.length = MAX_AU then .eq else .gt

namespace Exclusions

/-- `Exclusions::new`: `iter::once((Int(0), Band::new(0, 0, MAX_AU))).collect()`
is one insertion into an empty map, i.e. a one-node tree with size field 1. -/
def new (inline_size : Int) : Exclusions :=
  { bands := ⟨.node .nil (0, Band.new 0 0 MAX_AU) .nil, 1⟩
    inline_size := inline_size }

/-- `Exclusions::place`: a read-only `lower_bound_with` search for the band,
then an exact `get` on its start (which splays, restructuring the tree but
not its contents).  `none` in the first component models the two fatal
paths (`expect`/`unwrap`). -/
def place (ex : Exclusions) (side : Side) (size : Size) :
    Option Point × Exclusions :=
  match ex.bands.lower_bound
      (fun band_block_start band =>
        compare_inline_size band_block_start band size ex.inline_size) with
  | none => (none, ex)
  | some (block_position, _) =>
    match ex.bands.get block_position with
    | (none, m') => (none, { ex with bands := m' })
    | (some band, m') =>
      let inline_position :=
        match side with
        | .Left => -band.left
        | .Right => ex.inline_size + band.right - size.inline
      (some { inline := inline_position, block := block_position },
        { ex with bands := m' })

/-- Overwrite the value stored at the root (the way callers of
`get_with_mut` mutate through the returned `&mut` reference). -/
def setRootValue (m : SplayMap Int Band) (v : Band) : SplayMap Int Band :=
  match m.root with
  | .nil => m
  | .node l kv r => ⟨.node l (kv.1, v) r, m.size⟩

/-- The comparator of `Exclusions::split`: find the band whose interval
`[start, start + length)` contains `size.block`. -/
def split_cmp (blk : Int) : Int → Band → Ordering := fun block_position band =>
  if blk < block_position then .lt
  else if blk ≥ block_position + band.length then .gt
  else .eq

/-- `Exclusions::split`: shrink the band containing `size.block` so it ends
there, and insert a new band starting at `size.block` carrying the same
intrusions over the remainder of the original interval.  `none` models the
fatal `expect` when no band contains `size.block`. -/
def split (ex : Exclusions) (side : Side) (size : Size) : Option Exclusions :=
  match SplayMap.get_with_mut (split_cmp size.block) ex.bands with
  | (none, _) => none
  | (some (upper_block_position, upper_band), m') =>
    let floor := upper_block_position + upper_band.length
    let m'' := setRootValue m'
      { upper_band with length := size.block - upper_block_position }
    let lower_band := Band.new upper_band.left upper_band.right
      (floor - size.block)
    some { ex with bands := (m''.insert size.block lower_band).2 }

/-- The comparator of the propagation loop in `Exclusions::exclude`: find
the band with `start < last ≤ start + length`, i.e. the band ENDING at or
after `last` and starting strictly before it. -/
def prop_cmp (last : Int) : Int → Band → Ordering := fun block_position band =>
  if last ≤ block_position then .lt
  else if last > block_position + band.length then .gt
  else .eq

/-- The propagation loop of `Exclusions::exclude`.  Starting from
`last = size.block` it repeatedly looks up the band whose interval
`(start, start + length]` contains `last`; while that band's intrusion
magnitude on `side` is at most `size.inline` it overwrites it with
`size.inline` (stored negated) and continues from that band's start —
walking BACKWARD through the bands.  It stops when the lookup fails or the
found band's intrusion is strictly greater.  The Rust loop is unbounded;
the fuel passed by `exclude` (band count + 1) strictly dominates the walk
length, because each iteration moves `last` to a strictly smaller key of
the fixed key set. -/
def excludeLoop (side : Side) (inline : Int) :
    Nat → Int → SplayMap Int Band → SplayMap Int Band
  | 0, _, m => m
  | fuel + 1, last, m =>
    match SplayMap.get_with_mut (prop_cmp last) m with
    | (none, m') => m'
    | (some (block_position, band), m') =>
      if -(band.get side) ≤ inline then
        excludeLoop side inline fuel block_position
          (setRootValue m' (band.set side (-inline)))
      else m'

/-- `Exclusions::exclude`: no-op if either dimension is zero, else split
then propagate. -/
def exclude (ex : Exclusions) (side : Side) (size : Size) :
    Option Exclusions :=
  if size.inline = 0 ∨ size.block = 0 then some ex
  else
    match ex.split side size with
    | none => none
    | some ex' =>
      some { ex' with
        bands := excludeLoop side size.inline (ex'.bands.root.sizeT + 1)
          size.block ex'.bands }

end Exclusions

/-! ## The band-partition invariant -/

/-- Contiguity from a given start: each band starts exactly where the
previous one ended, with positive length. -/
def bandsChain : Int → List (Int × Band) → Prop
  | _, [] => True
  | s, (k, b) :: rest => k = s ∧ 0 < b.length ∧ bandsChain (k + b.length) rest

instance bandsChain.dec : (s : Int) → (l : List (Int × Band)) →
    Decidable (bandsChain s l)
  | _, [] => .isTrue trivial
  | s, (k, b) :: rest =>
    have : Decidable (bandsChain (k + b.length) rest) := bandsChain.dec _ rest
    inferInstanceAs (Decidable (_ ∧ _ ∧ _))

/-- Where the last band of the list ends (the seed for an empty list). -/
def lastEnd : Int → List (Int × Band) → Int
  | s, [] => s
  | _, (k, b) :: rest => lastEnd (k + b.length) rest

/-- The band-partition invariant of `Exclusions`: bands are contiguous from
position `0`, there is at least one, and the last is the open-ended one. -/
def bandsOk (l : List (Int × Band)) : Prop :=
  bandsChain 0 l ∧ l ≠ [] ∧ lastEnd 0 l = MAX_AU

instance : (l : List (Int × Band)) → Decidable (bandsOk l) := fun l =>
  inferInstanceAs (Decidable (_ ∧ _ ∧ _))

theorem le_lastEnd {l : List (Int × Band)} : ∀ {s : Int}, bandsChain s l →
    s ≤ lastEnd s l := by
  induction l with
  | nil => intro s _; exact le_refl s
  | cons p rest ih =>
    intro s h
    obtain ⟨p1, p2⟩ := p
    obtain ⟨hk, hpos, hrest⟩ := h
    calc s = p1 := hk.symm
    _ ≤ p1 + p2.length := by omega
    _ ≤ lastEnd (p1 + p2.length) rest := ih hrest
    _ = lastEnd s ((p1, p2) :: rest) := rfl

theorem chain_le {l : List (Int × Band)} : ∀ {s : Int}, bandsChain s l →
    ∀ p ∈ l, s ≤ p.1 ∧ p.1 + p.2.length ≤ lastEnd s l := by
  induction l with
  | nil => intro s _ p hp; simp at hp
  | cons q rest ih =>
    intro s h p hp
    obtain ⟨q1, q2⟩ := q
    obtain ⟨hk, hpos, hrest⟩ := h
    rcases List.mem_cons.mp hp with h | h
    · subst h
      exact ⟨le_of_eq hk.symm, le_lastEnd hrest⟩
    · have := ih hrest p h
      exact ⟨by omega, this.2⟩

theorem chain_sep {l : List (Int × Band)} : ∀ {s : Int}, bandsChain s l →
    l.Pairwise (fun p q => p.1 + p.2.length ≤ q.1) := by
  induction l with
  | nil => intro s _; exact .nil
  | cons q rest ih =>
    intro s h
    obtain ⟨q1, q2⟩ := q
    obtain ⟨hk, hpos, hrest⟩ := h
    exact .cons (fun p hp => (chain_le hrest p hp).1) (ih hrest)

theorem chain_pos {l : List (Int × Band)} : ∀ {s : Int}, bandsChain s l →
    ∀ p ∈ l, 0 < p.2.length := by
  induction l with
  | nil => intro s _ p hp; simp at hp
  | cons q rest ih =>
    intro s h p hp
    obtain ⟨q1, q2⟩ := q
    obtain ⟨hk, hpos, hrest⟩ := h
    rcases List.mem_cons.mp hp with h | h
    · subst h; exact hpos
    · exact ih hrest p h

theorem chain_sorted {l : List (Int × Band)} {s : Int} (h : bandsChain s l) :
    sortedKV l := by
  rw [sortedKV]
  have hsep := chain_sep h
  have hpos := chain_pos h
  refine List.Pairwise.imp_of_mem ?_ hsep
  intro p q hp _ hle
  have := hpos p hp
  omega

theorem chain_covers {l : List (Int × Band)} : ∀ {s x : Int},
    bandsChain s l → s ≤ x → x < lastEnd s l →
    ∃ p ∈ l, p.1 ≤ x ∧ x < p.1 + p.2.length := by
  induction l with
  | nil =>
    intro s x _ h1 h2
    exact absurd (lt_of_le_of_lt h1 h2) (lt_irrefl _)
  | cons q rest ih =>
    intro s x h h1 h2
    obtain ⟨q1, q2⟩ := q
    obtain ⟨hk, hpos, hrest⟩ := h
    by_cases hx : x < q1 + q2.length
    · exact ⟨(q1, q2), by simp, by omega, hx⟩
    · obtain ⟨p, hp, hle⟩ := ih hrest (by omega) h2
      exact ⟨p, by simp [hp], hle⟩

theorem chain_append {A B : List (Int × Band)} : ∀ {s : Int},
    bandsChain s (A ++ B) ↔
      bandsChain s A ∧ bandsChain (lastEnd s A) B := by
  induction A with
  | nil => intro s; simp [bandsChain, lastEnd]
  | cons q A ih =>
    intro s
    obtain ⟨q1, q2⟩ := q
    simp only [List.cons_append, bandsChain, lastEnd, List.append_eq, ih,
      and_assoc]

theorem lastEnd_append {A B : List (Int × Band)} : ∀ {s : Int},
    lastEnd s (A ++ B) = lastEnd (lastEnd s A) B := by
  induction A with
  | nil => intro s; rfl
  | cons q A ih =>
    intro s
    obtain ⟨q1, q2⟩ := q
    simp only [List.cons_append, lastEnd, List.append_eq, ih]

/-- Exactly one band is open-ended under the invariant. -/
theorem bandsOk_one_terminal {l : List (Int × Band)} (h : bandsOk l) :
    (l.filter (fun p => decide (p.1 + p.2.length = MAX_AU))).length = 1 := by
  obtain ⟨hchain, hne, hlast⟩ := h
  suffices h : ∀ (l : List (Int × Band)) (s : Int), bandsChain s l → l ≠ [] →
      lastEnd s l = MAX_AU →
      (l.filter (fun p => decide (p.1 + p.2.length = MAX_AU))).length = 1 by
    exact h l 0 hchain hne hlast
  clear hchain hne hlast
  intro l
  induction l with
  | nil => intro s _ h; exact absurd rfl h
  | cons q rest ih =>
    intro s hch _ hlast
    obtain ⟨q1, q2⟩ := q
    obtain ⟨hk, hpos, hrest⟩ := hch
    cases rest with
    | nil =>
      have hmax : q1 + q2.length = MAX_AU := hlast
      simp [List.filter_cons, hmax]
    | cons r2 rest2 =>
      have hr2 := chain_le hrest r2 (by simp)
      have hr2pos := chain_pos hrest r2 (by simp)
      have hlast' : lastEnd (q1 + q2.length) (r2 :: rest2) = MAX_AU := hlast
      have hne : q1 + q2.length ≠ MAX_AU := by
        rw [hlast'] at hr2
        omega
      rw [List.filter_cons, if_neg (by simpa using hne)]
      exact ih (q1 + q2.length) hrest (by simp) hlast'

/-! ## Refinement of `split` and `exclude` to list level -/

theorem pairwise_key_rel {R : (Int × Band) → (Int × Band) → Prop}
    {l : List (Int × Band)} (hs : sortedKV l) (hsep : l.Pairwise R)
    {p q : Int × Band} (hp : p ∈ l) (hq : q ∈ l) (hlt : p.1 < q.1) :
    R p q := by
  induction l with
  | nil => simp at hp
  | cons a rest ih =>
    rw [sortedKV_cons] at hs
    rw [List.pairwise_cons] at hsep
    rcases List.mem_cons.mp hp with h1 | h1 <;>
      rcases List.mem_cons.mp hq with h2 | h2
    · rw [h1, h2] at hlt; exact absurd hlt (lt_irrefl _)
    · rw [h1]; exact hsep.1 q h2
    · rw [h2] at hlt
      exact absurd (lt_trans (hs.1 p h1) hlt) (lt_irrefl _)
    · exact ih hs.2 hsep.2 h1 h2

theorem sortedKV_key_unique {l : List (Int × Band)} (hs : sortedKV l)
    {p q : Int × Band} (hp : p ∈ l) (hq : q ∈ l) (hk : p.1 = q.1) :
    p = q := by
  induction l with
  | nil => simp at hp
  | cons a rest ih =>
    rw [sortedKV_cons] at hs
    rcases List.mem_cons.mp hp with h1 | h1 <;>
      rcases List.mem_cons.mp hq with h2 | h2
    · rw [h1, h2]
    · rw [h1] at hk ⊢
      exact absurd (hk ▸ hs.1 q h2) (lt_irrefl _)
    · rw [h2] at hk ⊢
      exact absurd (hk ▸ hs.1 p h1) (lt_irrefl _).elim
    · exact ih hs.2 h1 h2

theorem sortedKV_set_mid {A B : List (Int × Band)} {p p' : Int × Band}
    (hs : sortedKV (A ++ p :: B)) (hk : p'.1 = p.1) :
    sortedKV (A ++ p' :: B) := by
  rw [sortedKV, List.pairwise_append] at hs ⊢
  rw [List.pairwise_cons] at hs ⊢
  obtain ⟨h1, ⟨h2, h3⟩, h4⟩ := hs
  refine ⟨h1, ⟨fun q hq => hk ▸ h2 q hq, h3⟩, ?_⟩
  intro a ha b hb
  rcases List.mem_cons.mp hb with h | h
  · rw [h, hk]
    exact h4 a ha p (by simp)
  · exact h4 a ha b (by simp [h])

theorem sorted_mid_unique {q : Int × Band} :
    ∀ {A C B D : List (Int × Band)}, sortedKV (A ++ q :: B) →
    A ++ q :: B = C ++ q :: D → A = C ∧ B = D := by
  intro A
  induction A with
  | nil =>
    intro C B D hs he
    cases C with
    | nil => simpa using he
    | cons c C =>
      simp only [List.nil_append, List.cons_append, List.cons.injEq] at he
      simp only [List.nil_append] at hs
      rw [sortedKV_cons] at hs
      exfalso
      have : q ∈ C ++ q :: D := by simp
      rw [← he.2] at this
      exact absurd (hs.1 q this) (by rw [he.1]; exact lt_irrefl _)
  | cons a A ih =>
    intro C B D hs he
    cases C with
    | nil =>
      simp only [List.nil_append, List.cons_append, List.cons.injEq] at he
      rw [sortedKV] at hs
      rw [List.cons_append, List.pairwise_cons] at hs
      exfalso
      have hqm : q ∈ A ++ q :: B := by simp
      rw [he.1] at hs
      exact absurd (hs.1 q hqm) (lt_irrefl _)
    | cons c C =>
      simp only [List.cons_append, List.cons.injEq] at he
      obtain ⟨hac, he⟩ := he
      rw [sortedKV] at hs
      rw [List.cons_append, List.pairwise_cons] at hs
      have := ih (by rw [sortedKV]; exact hs.2) he
      exact ⟨by rw [hac, this.1], this.2⟩

namespace Exclusions

theorem split_cmp_eq_iff (blk : Int) (p : Int × Band) :
    split_cmp blk p.1 p.2 = .eq ↔ p.1 ≤ blk ∧ blk < p.1 + p.2.length := by
  rw [split_cmp]
  by_cases h1 : blk < p.1
  · rw [if_pos h1]; constructor
    · intro h; cases h
    · intro h; omega
  · rw [if_neg h1]
    by_cases h2 : blk ≥ p.1 + p.2.length
    · rw [if_pos h2]; constructor
      · intro h; cases h
      · intro h; omega
    · rw [if_neg h2]
      constructor
      · intro _; omega
      · intro _; rfl

theorem prop_cmp_eq_iff (last : Int) (p : Int × Band) :
    prop_cmp last p.1 p.2 = .eq ↔ p.1 < last ∧ last ≤ p.1 + p.2.length := by
  rw [prop_cmp]
  by_cases h1 : last ≤ p.1
  · rw [if_pos h1]; constructor
    · intro h; cases h
    · intro h; omega
  · rw [if_neg h1]
    by_cases h2 : last > p.1 + p.2.length
    · rw [if_pos h2]; constructor
      · intro h; cases h
      · intro h; omega
    · rw [if_neg h2]
      constructor
      · intro _; omega
      · intro _; rfl

theorem monoOn_split_cmp {l : List (Int × Band)} {s : Int}
    (hch : bandsChain s l) (blk : Int) : MonoOn (split_cmp blk) l := by
  intro p hp q hq hlt
  have hsep := pairwise_key_rel (chain_sorted hch) (chain_sep hch) hp hq hlt
  rw [split_cmp, split_cmp]
  by_cases h1 : blk < p.1
  · rw [if_pos h1, if_pos (by omega)]
  · rw [if_neg h1]
    by_cases h2 : blk ≥ p.1 + p.2.length
    · rw [if_pos h2]; simp [rank]
    · rw [if_neg h2, if_pos (by omega)]
      simp [rank]

theorem monoOn_prop_cmp {l : List (Int × Band)} {s : Int}
    (hch : bandsChain s l) (last : Int) : MonoOn (prop_cmp last) l := by
  intro p hp q hq hlt
  have hsep := pairwise_key_rel (chain_sorted hch) (chain_sep hch) hp hq hlt
  rw [prop_cmp, prop_cmp]
  by_cases h1 : last ≤ p.1
  · rw [if_pos h1, if_pos (by omega)]
  · rw [if_neg h1]
    by_cases h2 : last > p.1 + p.2.length
    · rw [if_pos h2]; simp [rank]
    · rw [if_neg h2, if_pos (by omega)]
      simp [rank]

theorem split_cmp_unique {l : List (Int × Band)} {s : Int}
    (hch : bandsChain s l) (blk : Int) {p q : Int × Band}
    (hp : p ∈ l) (hq : q ∈ l) (hpe : split_cmp blk p.1 p.2 = .eq)
    (hqe : split_cmp blk q.1 q.2 = .eq) : p = q := by
  rw [split_cmp_eq_iff] at hpe hqe
  rcases lt_trichotomy p.1 q.1 with h | h | h
  · have := pairwise_key_rel (chain_sorted hch) (chain_sep hch) hp hq h
    omega
  · exact sortedKV_key_unique (chain_sorted hch) hp hq h
  · have := pairwise_key_rel (chain_sorted hch) (chain_sep hch) hq hp h
    omega

theorem prop_cmp_unique {l : List (Int × Band)} {s : Int}
    (hch : bandsChain s l) (last : Int) {p q : Int × Band}
    (hp : p ∈ l) (hq : q ∈ l) (hpe : prop_cmp last p.1 p.2 = .eq)
    (hqe : prop_cmp last q.1 q.2 = .eq) : p = q := by
  rw [prop_cmp_eq_iff] at hpe hqe
  rcases lt_trichotomy p.1 q.1 with h | h | h
  · have := pairwise_key_rel (chain_sorted hch) (chain_sep hch) hp hq h
    omega
  · exact sortedKV_key_unique (chain_sorted hch) hp hq h
  · have := pairwise_key_rel (chain_sorted hch) (chain_sep hch) hq hp h
    omega

/-- List-level reference for `Exclusions::split`: shrink the band whose
interval contains `blk` so it ends at `blk`, and insert a new band at `blk`
with the same intrusions over the remainder (no change when a band already
starts at `blk`). -/
def splitRef (blk : Int) : List (Int × Band) → List (Int × Band)
  | [] => []
  | (k, b) :: rest =>
    if blk < k then (k, b) :: rest
    else if blk ≥ k + b.length then (k, b) :: splitRef blk rest
    else if k = blk then (k, b) :: rest
    else (k, Band.new b.left b.right (blk - k)) ::
      (blk, Band.new b.left b.right (k + b.length - blk)) :: rest

theorem splitRef_eq_hit {A B : List (Int × Band)} {b : Band} {blk : Int}
    (hA : ∀ p ∈ A, p.1 ≤ blk ∧ p.1 + p.2.length ≤ blk)
    (hb : 0 < b.length) :
    splitRef blk (A ++ (blk, b) :: B) = A ++ (blk, b) :: B := by
  induction A with
  | nil =>
    rw [List.nil_append, splitRef, if_neg (lt_irrefl blk),
      if_neg (by omega), if_pos rfl]
  | cons a A ih =>
    have ha := hA a (by simp)
    rw [List.cons_append, splitRef, if_neg (by omega), if_pos (by omega)]
    rw [ih (fun p hp => hA p (by simp [hp]))]

theorem splitRef_eq_split {A B : List (Int × Band)} {k : Int} {b : Band}
    {blk : Int} (hA : ∀ p ∈ A, p.1 ≤ blk ∧ p.1 + p.2.length ≤ blk)
    (hk : k < blk) (hkl : blk < k + b.length) :
    splitRef blk (A ++ (k, b) :: B) =
      A ++ (k, Band.new b.left b.right (blk - k)) ::
        (blk, Band.new b.left b.right (k + b.length - blk)) :: B := by
  induction A with
  | nil =>
    rw [List.nil_append, splitRef, if_neg (by omega), if_neg (by omega),
      if_neg (by omega)]
    rfl
  | cons a A ih =>
    have ha := hA a (by simp)
    rw [List.cons_append, splitRef, if_neg (by omega), if_pos (by omega)]
    rw [ih (fun p hp => hA p (by simp [hp]))]
    rfl

theorem setRootValue_eq {L R : Tree Int Band} {q : Int × Band} {n : Nat}
    (v : Band) :
    setRootValue ⟨.node L q R, n⟩ v = ⟨.node L (q.1, v) R, n⟩ := rfl

/-- `Exclusions::split` refined to `splitRef`, given the invariant and a
band containing `size.block`. -/
theorem split_model (ex : Exclusions) (side : Side) (size : Size)
    (hch : bandsChain 0 ex.bands.root.toList)
    (hmem : ∃ p ∈ ex.bands.root.toList,
      p.1 ≤ size.block ∧ size.block < p.1 + p.2.length) :
    ∃ ex', ex.split side size = some ex' ∧
      ex'.bands.root.toList = splitRef size.block ex.bands.root.toList ∧
      ex'.inline_size = ex.inline_size := by
  obtain ⟨p0, hp0, hp0c⟩ := hmem
  have hs := chain_sorted hch
  have hmono := monoOn_split_cmp hch size.block
  obtain ⟨L, q, R, hgw, hq, htl⟩ := get_with_mut_hit _ ex.bands hs hmono
    ⟨p0, hp0, (split_cmp_eq_iff _ p0).mpr hp0c⟩
  obtain ⟨q1, q2⟩ := q
  rw [split_cmp_eq_iff] at hq
  simp only at hq
  have hqmem : (q1, q2) ∈ ex.bands.root.toList := by rw [← htl]; simp
  have hs' : sortedKV (L.toList ++ (q1, q2) :: R.toList) := htl ▸ hs
  have hmidL := (sortedKV_cons_mid hs').1
  have hmidR := (sortedKV_cons_mid hs').2
  have hLsep : ∀ p ∈ L.toList, p.1 ≤ size.block ∧
      p.1 + p.2.length ≤ size.block := by
    intro p hp
    have hpmem : p ∈ ex.bands.root.toList := by
      rw [← htl]; simp [hp]
    have := pairwise_key_rel (chain_sorted hch) (chain_sep hch)
      hpmem hqmem (hmidL p hp)
    have hppos := chain_pos hch p hpmem
    simp only at this
    omega
  have hRgt : ∀ p ∈ R.toList, size.block < p.1 := by
    intro p hp
    have hpmem : p ∈ ex.bands.root.toList := by
      rw [← htl]; simp [hp]
    have := pairwise_key_rel (chain_sorted hch) (chain_sep hch)
      hqmem hpmem (hmidR p hp)
    simp only at this
    omega
  have hpos : 0 < q2.length := chain_pos hch (q1, q2) hqmem
  have hs'' : sortedKV
      (L.toList ++ (q1, { q2 with length := size.block - q1 }) :: R.toList) :=
    sortedKV_set_mid hs' rfl
  have hins := insert_model
    (⟨Tree.node L (q1, { q2 with length := size.block - q1 }) R,
      ex.bands.size⟩ : SplayMap Int Band) size.block
    (Band.new q2.left q2.right (q1 + q2.length - size.block))
    (by simpa using hs'')
  have hred : ex.split side size = some { ex with bands :=
      ((⟨Tree.node L (q1, { q2 with length := size.block - q1 }) R,
        ex.bands.size⟩ : SplayMap Int Band).insert size.block
        (Band.new q2.left q2.right (q1 + q2.length - size.block))).2 } := by
    rw [Exclusions.split, hgw]
    rfl
  refine ⟨_, hred, ?_, rfl⟩
  show ((⟨Tree.node L (q1, { q2 with length := size.block - q1 }) R,
      ex.bands.size⟩ : SplayMap Int Band).insert size.block
      (Band.new q2.left q2.right (q1 + q2.length - size.block))).2.root.toList
    = splitRef size.block ex.bands.root.toList
  rw [hins.2.1]
  simp only [toList_node]
  by_cases hkb : q1 = size.block
  · subst hkb
    -- the containing band already starts at `size.block`: the rewrite
    -- and re-insert restore the band, the list is unchanged
    have hq2 : Band.new q2.left q2.right (size.block + q2.length - size.block)
        = q2 := by
      cases q2
      simp only [Band.new, Band.mk.injEq]
      exact ⟨trivial, trivial, by omega⟩
    rw [insertL_mid_eq hs'' rfl, hq2, ← htl,
      splitRef_eq_hit hLsep hpos]
  · have hqlt : q1 < size.block := by omega
    have hins2 := insertL_mid_gt
      (v := Band.new q2.left q2.right (q1 + q2.length - size.block))
      hs'' hqlt hRgt
    rw [hins2, ← htl, splitRef_eq_split hLsep hqlt hq.2]
    rfl

theorem set_length (b : Band) (side : Side) (x : Int) :
    (b.set side x).length = b.length := by
  cases side <;> rfl

/-- List-level reference for the propagation loop of `Exclusions::exclude`,
walking the bands in REVERSE order (the band ending at the split point
first): overwrite the `side` intrusion with `-inline` while the stored
magnitude is at most `inline`; stop at the first strictly larger one. -/
def propRef (side : Side) (inline : Int) :
    List (Int × Band) → List (Int × Band)
  | [] => []
  | (k, b) :: rest =>
    if -(b.get side) ≤ inline then
      (k, b.set side (-inline)) :: propRef side inline rest
    else (k, b) :: rest

/-- The propagation loop refined to `propRef` over the reversed prefix of
bands ending at `last`. -/
theorem excludeLoop_model (side : Side) (inline : Int) :
    ∀ (fuel : Nat) (P S : List (Int × Band)) (s0 last : Int)
      (m : SplayMap Int Band),
      m.root.toList = P ++ S →
      bandsChain s0 (P ++ S) →
      lastEnd s0 P = last →
      P.length < fuel →
      (excludeLoop side inline fuel last m).root.toList =
        (propRef side inline P.reverse).reverse ++ S := by
  intro fuel
  induction fuel with
  | zero =>
    intro P S s0 last m _ _ _ hlt
    exact absurd hlt (by omega)
  | succ fuel ih =>
    intro P S s0 last m htl hch hlast hlt
    rcases List.eq_nil_or_concat P with hP | ⟨P', p, hP⟩
    · -- empty prefix: every band starts at or after `last`, the lookup
      -- misses and the loop stops with the map contents unchanged
      subst hP
      simp only [List.nil_append] at htl hch
      simp only [lastEnd] at hlast
      have hmiss : ∀ q ∈ m.root.toList, prop_cmp last q.1 q.2 ≠ .eq := by
        intro q hq hcontra
        have h1 := (prop_cmp_eq_iff last q).mp hcontra
        have := chain_le hch q (by rw [← htl]; exact hq)
        omega
      have h1 := get_with_mut_miss (prop_cmp last) m hmiss
      have h2 := get_with_mut_preserves (prop_cmp last) m
      rcases hgw : SplayMap.get_with_mut (prop_cmp last) m with ⟨o, m'⟩
      rw [hgw] at h1 h2
      simp only at h1
      subst h1
      simp only [excludeLoop, hgw]
      simpa [propRef] using h2.1.trans htl
    · rw [List.concat_eq_append] at hP
      subst hP
      obtain ⟨p1, p2⟩ := p
      have hassoc : (P' ++ [((p1 : Int), p2)]) ++ S = P' ++ ((p1, p2) :: S) := by
        simp
      rw [hassoc] at htl hch
      have hch' := chain_append.mp hch
      have hchP := hch'.1
      have hp1 : p1 = lastEnd s0 P' := hch'.2.1
      have hppos : 0 < p2.length := hch'.2.2.1
      have hchS : bandsChain (p1 + p2.length) S := hch'.2.2.2
      have hlastp : last = p1 + p2.length := by
        rw [← hlast, lastEnd_append]
        simp [lastEnd]
      have hpe : prop_cmp last p1 p2 = .eq := by
        rw [prop_cmp]
        rw [if_neg (by omega), if_neg (by omega)]
      have hmem : ((p1, p2) : Int × Band) ∈ m.root.toList := by
        rw [htl]; simp
      have hchm : bandsChain s0 m.root.toList := by rw [htl]; exact hch
      have hsm : sortedKV m.root.toList := chain_sorted hchm
      obtain ⟨L, q, R, hgw, hq, htl2⟩ := get_with_mut_hit _ m hsm
        (monoOn_prop_cmp hchm last) ⟨(p1, p2), hmem, hpe⟩
      have hq' : q = (p1, p2) := prop_cmp_unique hchm last
        (by rw [← htl2]; simp) hmem hq hpe
      subst hq'
      have hdec := sorted_mid_unique (by rw [htl2]; exact hsm)
        (htl2.trans htl)
      obtain ⟨hL, hR⟩ := hdec
      have hlt' : P'.length < fuel := by
        simp only [List.length_append, List.length_singleton] at hlt
        omega
      simp only [excludeLoop, hgw]
      by_cases hcond : -(p2.get side) ≤ inline
      · rw [if_pos hcond]
        have hset : setRootValue ⟨Tree.node L (p1, p2) R, m.size⟩
            (p2.set side (-inline)) =
            ⟨Tree.node L (p1, p2.set side (-inline)) R, m.size⟩ := rfl
        rw [hset]
        have hrec := ih P' ((p1, p2.set side (-inline)) :: S) s0 p1
          ⟨Tree.node L (p1, p2.set side (-inline)) R, m.size⟩
          (by simp only [toList_node]; rw [hL, hR])
          (by
            rw [chain_append]
            refine ⟨hchP, ?_, ?_, ?_⟩
            · exact hp1
            · rw [set_length]; exact hppos
            · rw [set_length]; exact hchS)
          hp1.symm hlt'
        rw [hrec]
        simp only [List.reverse_append, List.reverse_cons, List.reverse_nil,
          List.nil_append, List.singleton_append, propRef, if_pos hcond,
          List.reverse_cons, List.append_assoc, List.singleton_append]
      · rw [if_neg hcond]
        simp only [toList_node]
        rw [hL, hR]
        simp only [List.reverse_append, List.reverse_cons, List.reverse_nil,
          List.nil_append, List.singleton_append, propRef, if_neg hcond,
          List.reverse_cons, List.reverse_reverse, List.append_assoc,
          List.singleton_append]

end Exclusions

theorem find?_decomp {α : Type} {f : α → Bool} {l : List α} {q : α}
    (h : l.find? f = some q) :
    ∃ A B, l = A ++ q :: B ∧ ∀ p ∈ A, f p = false := by
  induction l with
  | nil => cases h
  | cons a l ih =>
    by_cases hb : f a
    · rw [List.find?_cons_of_pos _ hb] at h
      injection h with h
      subst h
      exact ⟨[], l, rfl, by simp⟩
    · rw [List.find?_cons_of_neg _ hb] at h
      obtain ⟨A, B, h1, h2⟩ := ih h
      refine ⟨a :: A, B, by rw [h1, List.cons_append], ?_⟩
      intro p hp
      rcases List.mem_cons.mp hp with h | h
      · rw [h]
        exact Bool.eq_false_iff.mpr hb
      · exact h2 p h

/-- `SplayMap::get` restructures the tree but never changes its in-order
contents or the size field, whatever the tree shape. -/
theorem get_preserves {K V : Type} [LinearOrder K] (m : SplayMap K V)
    (key : K) :
    (m.get key).2.root.toList = m.root.toList ∧
    (m.get key).2.size = m.size := by
  cases hroot : m.root with
  | nil => simp [SplayMap.get, hroot]
  | node l kv r =>
    obtain ⟨L, q, R, hsplay⟩ := splay_decomp (keyCmp key) l kv r
    have htl := toList_splay (keyCmp key) (Tree.node l kv r)
    rw [hsplay] at htl
    simp [SplayMap.get, hroot, hsplay, htl]

namespace Exclusions

/-- Reduction of `Exclusions::place` once the two lookups are known. -/
theorem place_eq (ex : Exclusions) (side : Side) (size : Size)
    {k : Int} {b : Band} {o : Option Band} {m' : SplayMap Int Band}
    (hlb : ex.bands.lower_bound
      (fun band_block_start band =>
        compare_inline_size band_block_start band size ex.inline_size) =
      some (k, b))
    (hgv : ex.bands.get k = (o, m')) :
    ex.place side size =
      (o.map (fun band =>
        { inline := match side with
            | Side.Left => -band.left
            | Side.Right => ex.inline_size + band.right - size.inline
          block := k }),
        { ex with bands := m' }) := by
  cases o with
  | none =>
    simp only [Exclusions.place, hlb, hgv]
    rfl
  | some band =>
    simp only [Exclusions.place, hlb, hgv]
    rfl

/-- `Exclusions::place` never changes the band contents, the size field or
the stored inline size, on any input. -/
theorem place_preserves (ex : Exclusions) (side : Side) (size : Size) :
    (ex.place side size).2.bands.root.toList = ex.bands.root.toList ∧
    (ex.place side size).2.bands.size = ex.bands.size ∧
    (ex.place side size).2.inline_size = ex.inline_size := by
  cases hlb : ex.bands.lower_bound
      (fun band_block_start band =>
        compare_inline_size band_block_start band size ex.inline_size) with
  | none =>
    simp [Exclusions.place, hlb]
  | some p =>
    obtain ⟨k, b⟩ := p
    have hget := get_preserves ex.bands k
    rcases hgv : ex.bands.get k with ⟨o, m'⟩
    rw [hgv] at hget
    rw [place_eq ex side size hlb hgv]
    exact ⟨hget.1, hget.2, rfl⟩

/-- Under the band-partition invariant the list holds a unique open-ended
band, and it exists. -/
theorem exists_terminal {l : List (Int × Band)} (h : bandsOk l) :
    ∃ p ∈ l, p.1 + p.2.length = MAX_AU := by
  have hf := bandsOk_one_terminal h
  have hne : l.filter (fun p => decide (p.1 + p.2.length = MAX_AU)) ≠ [] := by
    intro hc
    rw [hc] at hf
    cases hf
  obtain ⟨p, hp⟩ := List.exists_mem_of_ne_nil _ hne
  have := List.mem_filter.mp hp
  exact ⟨p, this.1, by simpa using this.2⟩

theorem terminal_unique {l : List (Int × Band)} (h : bandsOk l)
    {p q : Int × Band} (hp : p ∈ l) (hq : q ∈ l)
    (hpt : p.1 + p.2.length = MAX_AU) (hqt : q.1 + q.2.length = MAX_AU) :
    p = q := by
  obtain ⟨hch, _, _⟩ := h
  rcases lt_trichotomy p.1 q.1 with hlt | heq | hlt
  · have hsep := pairwise_key_rel (chain_sorted hch) (chain_sep hch) hp hq hlt
    have := chain_pos hch q hq
    omega
  · exact sortedKV_key_unique (chain_sorted hch) hp hq heq
  · have hsep := pairwise_key_rel (chain_sorted hch) (chain_sep hch) hq hp hlt
    have := chain_pos hch p hp
    omega

/-- `compare_inline_size` answers `Greater` exactly on an ineligible
non-terminal band. -/
theorem compare_inline_size_gt_iff (k : Int) (b : Band) (size : Size)
    (inline_size : Int) :
    compare_inline_size k b size inline_size = .gt ↔
      b.available_size inline_size < size.inline ∧ k + b.length ≠ MAX_AU := by
  rw [compare_inline_size]
  rcases hc : compare size.inline (b.available_size inline_size) with _ | _ | _
  · rw [compare_lt_iff_lt] at hc
    constructor
    · intro h; cases h
    · intro h; omega
  · rw [compare_eq_iff_eq] at hc
    constructor
    · intro h; cases h
    · intro h; omega
  · rw [compare_gt_iff_gt] at hc
    by_cases ht : k + b.length = MAX_AU
    · rw [if_pos ht]
      constructor
      · intro h; cases h
      · intro h; exact absurd ht h.2
    · rw [if_neg ht]
      exact ⟨fun _ => ⟨hc, ht⟩, fun _ => rfl⟩

/-- `compare_inline_size` answers `Equal` exactly on an ineligible
TERMINAL band. -/
theorem compare_inline_size_eq_iff (k : Int) (b : Band) (size : Size)
    (inline_size : Int) :
    compare_inline_size k b size inline_size = .eq ↔
      b.available_size inline_size < size.inline ∧ k + b.length = MAX_AU := by
  rw [compare_inline_size]
  rcases hc : compare size.inline (b.available_size inline_size) with _ | _ | _
  · rw [compare_lt_iff_lt] at hc
    constructor
    · intro h; cases h
    · intro h; omega
  · rw [compare_eq_iff_eq] at hc
    constructor
    · intro h; cases h
    · intro h; omega
  · rw [compare_gt_iff_gt] at hc
    by_cases ht : k + b.length = MAX_AU
    · rw [if_pos ht]
      exact ⟨fun _ => ⟨hc, ht⟩, fun _ => rfl⟩
    · rw [if_neg ht]
      constructor
      · intro h; cases h
      · intro h; exact absurd h.2 ht

/-- Under the invariant, the lower-bound search of `place` always
succeeds, and the follow-up exact lookup succeeds too: `place` returns a
point on every invariant-satisfying state. -/
theorem place_some (ex : Exclusions) (side : Side) (size : Size)
    (hok : bandsOk ex.bands.root.toList) :
    ∃ pt, (ex.place side size).1 = some pt := by
  obtain ⟨hch, hne, hlast⟩ := hok
  have hs := chain_sorted hch
  obtain ⟨t, htmem, hterm⟩ := exists_terminal ⟨hch, hne, hlast⟩
  have hroot_ne : ex.bands.root ≠ .nil := by
    intro hc
    rw [← toList_eq_nil] at hc
    exact hne hc
  have hmax : ∀ p ∈ ex.bands.root.toList,
      compare_inline_size p.1 p.2 size ex.inline_size = .gt →
      ∃ q ∈ ex.bands.root.toList, p.1 < q.1 := by
    intro p hp hgt
    rw [compare_inline_size_gt_iff] at hgt
    refine ⟨t, htmem, ?_⟩
    rcases lt_trichotomy p.1 t.1 with hlt | heq | hlt
    · exact hlt
    · exact absurd (congrArg (fun r => r.1 + r.2.length)
        (sortedKV_key_unique hs hp htmem heq)) (by simp [hterm, hgt.2])
    · have hsep := pairwise_key_rel (chain_sorted hch) (chain_sep hch)
        htmem hp hlt
      have hple := (chain_le hch p hp).2
      have hppos := chain_pos hch p hp
      rw [hlast] at hple
      omega
  obtain ⟨q, hq⟩ := lower_bound_with_some
    (fun band_block_start band =>
      compare_inline_size band_block_start band size ex.inline_size)
    ex.bands.root hs hroot_ne hmax
  obtain ⟨k, b⟩ := q
  have hqmem : ((k, b) : Int × Band) ∈ ex.bands.root.toList :=
    lower_bound_with_mem _ _ _ hq
  have hget := get_model ex.bands k hs
  have hlook : lookupL k ex.bands.root.toList = some b :=
    lookupL_of_sorted_mem hs hqmem rfl
  rcases hgv : ex.bands.get k with ⟨o, m'⟩
  rw [hgv, hlook] at hget
  have ho : o = some b := hget.1
  subst ho
  refine ⟨⟨(match side with
    | Side.Left => -b.left
    | Side.Right => ex.inline_size + b.right - size.inline), k⟩, ?_⟩
  rw [place_eq ex side size hq hgv]
  rfl

/-- Under the invariant AND a monotone eligibility profile (once a band is
wide enough, so is every later band), `place` returns exactly the
lowest-starting band in which the requested inline size fits, the
open-ended band acting as the always-eligible fallback, with the inline
coordinate determined by the side. -/
theorem place_model (ex : Exclusions) (side : Side) (size : Size)
    (hok : bandsOk ex.bands.root.toList)
    (hm : MonoOn (fun k b => compare_inline_size k b size ex.inline_size)
      ex.bands.root.toList) :
    ∃ k b, ((k, b) : Int × Band) ∈ ex.bands.root.toList ∧
      (ex.place side size).1 = some
        { inline := match side with
            | Side.Left => -b.left
            | Side.Right => ex.inline_size + b.right - size.inline
          block := k } ∧
      (size.inline ≤ b.available_size ex.inline_size ∨
        k + b.length = MAX_AU) ∧
      (∀ p ∈ ex.bands.root.toList, p.1 < k →
        ¬ size.inline ≤ p.2.available_size ex.inline_size) := by
  obtain ⟨hch, hne, hlast⟩ := hok
  have hs := chain_sorted hch
  have huniq : ∀ p ∈ ex.bands.root.toList, ∀ q ∈ ex.bands.root.toList,
      compare_inline_size p.1 p.2 size ex.inline_size = .eq →
      compare_inline_size q.1 q.2 size ex.inline_size = .eq → p = q := by
    intro p hp q hq h1 h2
    rw [compare_inline_size_eq_iff] at h1 h2
    exact terminal_unique ⟨hch, hne, hlast⟩ hp hq h1.2 h2.2
  have hfind := lower_bound_with_find
    (fun band_block_start band =>
      compare_inline_size band_block_start band size ex.inline_size)
    ex.bands.root hs hm huniq
  obtain ⟨pt, hq⟩ := place_some ex side size ⟨hch, hne, hlast⟩
  rcases hlb : ex.bands.lower_bound
      (fun band_block_start band =>
        compare_inline_size band_block_start band size ex.inline_size) with
    _ | ⟨k0, b0⟩
  · rw [Exclusions.place, hlb] at hq
    cases hq
  · have hq0mem : ((k0, b0) : Int × Band) ∈ ex.bands.root.toList :=
      lower_bound_with_mem _ _ _ hlb
    have hget := get_model ex.bands k0 hs
    have hlook : lookupL k0 ex.bands.root.toList = some b0 :=
      lookupL_of_sorted_mem hs hq0mem rfl
    rcases hgv : ex.bands.get k0 with ⟨o, m'⟩
    rw [hgv, hlook] at hget
    have ho : o = some b0 := hget.1
    subst ho
    have hfound : ex.bands.root.toList.find?
        (fun p => decide (compare_inline_size p.1 p.2 size
          ex.inline_size ≠ .gt)) = some (k0, b0) := by
      rw [← hfind]
      exact hlb
    refine ⟨k0, b0, hq0mem, ?_, ?_, ?_⟩
    · rw [place_eq ex side size hlb hgv]
      rfl
    · have h0 := List.find?_some hfound
      have hpred : compare_inline_size k0 b0 size ex.inline_size ≠ .gt :=
        of_decide_eq_true h0
      rcases hcc : compare_inline_size k0 b0 size ex.inline_size with
        _ | _ | _
      · left
        rw [compare_inline_size] at hcc
        rcases hc : compare size.inline (b0.available_size ex.inline_size)
          with _ | _ | _
        · rw [compare_lt_iff_lt] at hc
          omega
        · rw [compare_eq_iff_eq] at hc
          omega
        · rw [hc] at hcc
          by_cases ht : k0 + b0.length = MAX_AU
          · rw [if_pos ht] at hcc
            cases hcc
          · rw [if_neg ht] at hcc
            cases hcc
      · right
        exact ((compare_inline_size_eq_iff _ _ _ _).mp hcc).2
      · exact absurd hcc hpred
    · obtain ⟨A, B, hdec, hA⟩ := find?_decomp hfound
      intro p hp hplt hfit
      have hpA : p ∈ A := by
        rw [hdec] at hp
        rcases List.mem_append.mp hp with h | h
        · exact h
        · rcases List.mem_cons.mp h with h | h
          · rw [h] at hplt
            exact absurd hplt (lt_irrefl _)
          · have hsd : sortedKV (A ++ (k0, b0) :: B) := hdec ▸ hs
            have := (sortedKV_cons_mid hsd).2 p h
            simp only at this
            omega
      have h0 := hA p hpA
      have hna : ¬ (compare_inline_size p.1 p.2 size ex.inline_size ≠ .gt) :=
        of_decide_eq_false h0
      have hgt := not_not.mp hna
      rw [compare_inline_size_gt_iff] at hgt
      rw [Band.available_size] at hgt hfit
      omega

/-- The key/length skeleton of a band list; the chain invariant only
depends on it. -/
def keyLen (p : Int × Band) : Int × Int := (p.1, p.2.length)

theorem chain_of_keyLen : ∀ {l l' : List (Int × Band)} {s : Int},
    l.map keyLen = l'.map keyLen → bandsChain s l → bandsChain s l' := by
  intro l
  induction l with
  | nil =>
    intro l' s h _
    cases l' with
    | nil => trivial
    | cons a l' => cases h
  | cons p l ih =>
    intro l' s h hc
    cases l' with
    | nil => cases h
    | cons a l' =>
      simp only [List.map_cons, List.cons.injEq] at h
      obtain ⟨h1, h2⟩ := h
      obtain ⟨p1, p2⟩ := p
      obtain ⟨a1, a2⟩ := a
      simp only [keyLen, Prod.mk.injEq] at h1
      obtain ⟨hk, hpos, hrest⟩ := hc
      exact ⟨h1.1 ▸ hk, h1.2 ▸ hpos, by
        rw [← h1.1, ← h1.2]
        exact ih h2 hrest⟩

theorem lastEnd_of_keyLen : ∀ {l l' : List (Int × Band)} {s : Int},
    l.map keyLen = l'.map keyLen → lastEnd s l = lastEnd s l' := by
  intro l
  induction l with
  | nil =>
    intro l' s h
    cases l' with
    | nil => rfl
    | cons a l' => cases h
  | cons p l ih =>
    intro l' s h
    cases l' with
    | nil => cases h
    | cons a l' =>
      simp only [List.map_cons, List.cons.injEq] at h
      obtain ⟨h1, h2⟩ := h
      obtain ⟨p1, p2⟩ := p
      obtain ⟨a1, a2⟩ := a
      simp only [keyLen, Prod.mk.injEq] at h1
      simp only [lastEnd]
      rw [h1.1, h1.2]
      exact ih h2

theorem propRef_keyLen (side : Side) (inline : Int) :
    ∀ l : List (Int × Band),
      (propRef side inline l).map keyLen = l.map keyLen := by
  intro l
  induction l with
  | nil => rfl
  | cons p l ih =>
    obtain ⟨k, b⟩ := p
    rw [propRef]
    by_cases hc : -(b.get side) ≤ inline
    · rw [if_pos hc]
      simp only [List.map_cons, ih, List.cons.injEq]
      exact ⟨by simp [keyLen, set_length], trivial⟩
    · rw [if_neg hc]

/-- `Exclusions::exclude` refined to list level, for a call passing the
zero guards on a state whose bands form a chain holding a band that
contains `size.block`: it splits the containing band at `size.block` and
then propagates the new intrusion BACKWARD from `size.block` through the
prefix `P` of bands ending there, leaving the suffix `S` untouched. -/
theorem exclude_model (ex : Exclusions) (side : Side) (size : Size)
    (hch : bandsChain 0 ex.bands.root.toList)
    (hmem : ∃ p ∈ ex.bands.root.toList,
      p.1 ≤ size.block ∧ size.block < p.1 + p.2.length)
    (hi : size.inline ≠ 0) (hb : size.block ≠ 0) :
    ∃ ex' P S, ex.exclude side size = some ex' ∧
      splitRef size.block ex.bands.root.toList = P ++ S ∧
      bandsChain 0 (P ++ S) ∧
      lastEnd 0 P = size.block ∧
      lastEnd 0 (P ++ S) = lastEnd 0 ex.bands.root.toList ∧
      S ≠ [] ∧
      ex'.bands.root.toList =
        (propRef side size.inline P.reverse).reverse ++ S ∧
      ex'.inline_size = ex.inline_size := by
  obtain ⟨exs, hsplit, hstl, hsinl⟩ := split_model ex side size hch hmem
  obtain ⟨p0, hp0, hp0c⟩ := hmem
  obtain ⟨k, b⟩ := p0
  simp only at hp0c
  obtain ⟨A, B, hdec⟩ := List.append_of_mem hp0
  have hchd : bandsChain 0 (A ++ (k, b) :: B) := hdec ▸ hch
  have hchA := (chain_append.mp hchd).1
  have hk : k = lastEnd 0 A := (chain_append.mp hchd).2.1
  have hbpos : 0 < b.length := (chain_append.mp hchd).2.2.1
  have hchB : bandsChain (k + b.length) B := (chain_append.mp hchd).2.2.2
  have hA : ∀ p ∈ A, p.1 ≤ size.block ∧ p.1 + p.2.length ≤ size.block := by
    intro p hp
    have h1 := (chain_le hchA p hp).2
    have h2 := chain_pos hchA p hp
    rw [← hk] at h1
    omega
  have hguard : ¬ (size.inline = 0 ∨ size.block = 0) := by
    rintro (h | h)
    · exact hi h
    · exact hb h
  -- choose the prefix/suffix decomposition of the split list
  by_cases hkb : k = size.block
  · subst hkb
    refine ⟨{ exs with bands := excludeLoop side size.inline (exs.bands.root.sizeT + 1) size.block exs.bands },
      A, (size.block, b) :: B, ?_, ?_, ?_, ?_, ?_, ?_, ?_, ?_⟩
    · simp only [Exclusions.exclude, if_neg hguard, hsplit]
    · rw [hdec, splitRef_eq_hit hA hbpos]
    · exact hdec ▸ hch
    · exact hk.symm
    · rw [hdec]
    · exact List.cons_ne_nil _ _
    · have hlen : A.length < exs.bands.root.sizeT + 1 := by
        have := length_toList exs.bands.root
        rw [hstl, hdec, splitRef_eq_hit hA hbpos] at this
        simp only [List.length_append, List.length_cons] at this
        omega
      exact excludeLoop_model side size.inline _ A ((size.block, b) :: B) 0
        size.block exs.bands (by rw [hstl, hdec, splitRef_eq_hit hA hbpos])
        (hdec ▸ hch) hk.symm hlen
    · exact hsinl
  · have hklt : k < size.block := by omega
    have hsr : splitRef size.block ex.bands.root.toList =
        A ++ (k, Band.new b.left b.right (size.block - k)) ::
          (size.block, Band.new b.left b.right
            (k + b.length - size.block)) :: B := by
      rw [hdec, splitRef_eq_split hA hklt hp0c.2]
    have hchain' : bandsChain 0
        ((A ++ [(k, Band.new b.left b.right (size.block - k))]) ++
          (size.block, Band.new b.left b.right
            (k + b.length - size.block)) :: B) := by
      rw [List.append_assoc, List.singleton_append]
      rw [chain_append]
      refine ⟨hchA, hk, by simpa [Band.new] using hklt, ?_, ?_, ?_⟩
      · simp [Band.new]
      · simp only [Band.new]
        omega
      · have he : size.block + (k + b.length - size.block) =
            k + b.length := by omega
        simp only [Band.new]
        rw [he]
        exact hchB
    have hlastP : lastEnd 0
        (A ++ [(k, Band.new b.left b.right (size.block - k))]) =
        size.block := by
      rw [lastEnd_append]
      simp only [lastEnd, Band.new]
      omega
    refine ⟨{ exs with bands := excludeLoop side size.inline (exs.bands.root.sizeT + 1) size.block exs.bands },
      A ++ [(k, Band.new b.left b.right (size.block - k))],
      (size.block, Band.new b.left b.right (k + b.length - size.block)) :: B,
      ?_, ?_, ?_, ?_, ?_, ?_, ?_, ?_⟩
    · simp only [Exclusions.exclude, if_neg hguard, hsplit]
    · rw [hsr, List.append_assoc, List.singleton_append]
    · exact hchain'
    · exact hlastP
    · rw [hdec]
      rw [List.append_assoc, List.singleton_append]
      rw [lastEnd_append, lastEnd_append]
      simp only [lastEnd, Band.new]
      have he : size.block + (k + b.length - size.block) =
          k + b.length := by omega
      rw [he]
    · exact List.cons_ne_nil _ _
    · have hlen : (A ++ [(k, Band.new b.left b.right
          (size.block - k))]).length < exs.bands.root.sizeT + 1 := by
        have := length_toList exs.bands.root
        rw [hstl, hsr] at this
        simp only [List.length_append, List.length_cons, List.length_nil,
          List.length_singleton] at this ⊢
        omega
      exact excludeLoop_model side size.inline _ _ _ 0 size.block
        exs.bands (by rw [hstl, hsr, List.append_assoc,
          List.singleton_append]) hchain' hlastP hlen
    · exact hsinl

/-- The band covering position `x` (first binding whose interval holds
`x`). -/
def bandAt (l : List (Int × Band)) (x : Int) : Option Band :=
  (l.find? (fun p => decide (p.1 ≤ x) && decide (x < p.1 + p.2.length))).map
    Prod.snd

theorem cover_unique {l : List (Int × Band)} {s : Int}
    (hch : bandsChain s l) {p q : Int × Band} (hp : p ∈ l) (hq : q ∈ l)
    {x : Int} (hpx : p.1 ≤ x ∧ x < p.1 + p.2.length)
    (hqx : q.1 ≤ x ∧ x < q.1 + q.2.length) : p = q := by
  rcases lt_trichotomy p.1 q.1 with hlt | heq | hlt
  · have := pairwise_key_rel (chain_sorted hch) (chain_sep hch) hp hq hlt
    omega
  · exact sortedKV_key_unique (chain_sorted hch) hp hq heq
  · have := pairwise_key_rel (chain_sorted hch) (chain_sep hch) hq hp hlt
    omega

theorem bandAt_mem {l : List (Int × Band)} {x : Int} {b : Band}
    (h : bandAt l x = some b) :
    ∃ k, (k, b) ∈ l ∧ k ≤ x ∧ x < k + b.length := by
  rw [bandAt] at h
  rcases hf : l.find?
      (fun p => decide (p.1 ≤ x) && decide (x < p.1 + p.2.length)) with
    _ | q
  · rw [hf] at h
    cases h
  · rw [hf] at h
    injection h with h
    have hmem := List.mem_of_find?_eq_some hf
    have hpred := List.find?_some hf
    simp only [Bool.and_eq_true, decide_eq_true_eq] at hpred
    obtain ⟨q1, q2⟩ := q
    simp only at h
    subst h
    exact ⟨q1, hmem, hpred.1, hpred.2⟩

/-- The bands produced by `splitRef` carry the intrusions of a band of the
input whose interval contains theirs. -/
theorem splitRef_mem {blk : Int} :
    ∀ {l : List (Int × Band)} {q : Int × Band}, q ∈ splitRef blk l →
      ∃ p ∈ l, q.2.left = p.2.left ∧ q.2.right = p.2.right ∧
        p.1 ≤ q.1 ∧ q.1 + q.2.length ≤ p.1 + p.2.length := by
  intro l
  induction l with
  | nil => intro q hq; simp [splitRef] at hq
  | cons a rest ih =>
    obtain ⟨k, b⟩ := a
    intro q hq
    rw [splitRef] at hq
    by_cases h1 : blk < k
    · rw [if_pos h1] at hq
      exact ⟨q, hq, rfl, rfl, le_refl _, le_refl _⟩
    · rw [if_neg h1] at hq
      by_cases h2 : blk ≥ k + b.length
      · rw [if_pos h2] at hq
        rcases List.mem_cons.mp hq with h | h
        · exact ⟨q, by simp [h], rfl, rfl, le_refl _, le_refl _⟩
        · obtain ⟨p, hp, hrest⟩ := ih h
          exact ⟨p, by simp [hp], hrest⟩
      · rw [if_neg h2] at hq
        by_cases h3 : k = blk
        · rw [if_pos h3] at hq
          exact ⟨q, hq, rfl, rfl, le_refl _, le_refl _⟩
        · rw [if_neg h3] at hq
          rcases List.mem_cons.mp hq with h | h
          · subst h
            exact ⟨(k, b), by simp, rfl, rfl, by simp, by
              simp only [Band.new]
              omega⟩
          · rcases List.mem_cons.mp h with h | h
            · subst h
              exact ⟨(k, b), by simp, rfl, rfl, by
                simp only
                omega, by
                simp only [Band.new]
                omega⟩
            · exact ⟨q, by simp [h], rfl, rfl, le_refl _, le_refl _⟩

/-- Every band in the output of `propRef` has the key and length of a band
of the input, whose intrusion on the excluded side it either keeps or
overwrites with the (at least as large) new magnitude. -/
theorem propRef_mem (side : Side) (inline : Int) :
    ∀ {l : List (Int × Band)} {q : Int × Band}, q ∈ propRef side inline l →
      ∃ p ∈ l, q.1 = p.1 ∧ q.2.length = p.2.length ∧
        (q.2 = p.2 ∨
          (q.2 = p.2.set side (-inline) ∧ -(p.2.get side) ≤ inline)) := by
  intro l
  induction l with
  | nil => intro q hq; simp [propRef] at hq
  | cons a rest ih =>
    obtain ⟨k, b⟩ := a
    intro q hq
    rw [propRef] at hq
    by_cases hc : -(b.get side) ≤ inline
    · rw [if_pos hc] at hq
      rcases List.mem_cons.mp hq with h | h
      · subst h
        exact ⟨(k, b), by simp, rfl, set_length b side (-inline),
          Or.inr ⟨rfl, hc⟩⟩
      · obtain ⟨p, hp, hrest⟩ := ih h
        exact ⟨p, by simp [hp], hrest⟩
    · rw [if_neg hc] at hq
      rcases List.mem_cons.mp hq with h | h
      · exact ⟨(k, b), by simp, by rw [h], by rw [h], Or.inl (by rw [h])⟩
      · exact ⟨q, by simp [h], rfl, rfl, Or.inl rfl⟩

theorem get_eq_of_fields {b b' : Band} (hl : b.left = b'.left)
    (hr : b.right = b'.right) (side : Side) : b.get side = b'.get side := by
  cases side <;> simp [Band.get, hl, hr]

theorem get_set_same (b : Band) (side : Side) (x : Int) :
    (b.set side x).get side = x := by
  cases side <;> rfl

/-- Inversion of a successful `exclude` call: either a zero guard fired
and the state is unchanged, or both dimensions are non-zero and some band
of the state contains `size.block`. -/
theorem exclude_some_cases {ex ex' : Exclusions} {side : Side} {size : Size}
    (he : ex.exclude side size = some ex') :
    ((size.inline = 0 ∨ size.block = 0) ∧ ex' = ex) ∨
    (size.inline ≠ 0 ∧ size.block ≠ 0 ∧
      ∃ p ∈ ex.bands.root.toList,
        p.1 ≤ size.block ∧ size.block < p.1 + p.2.length) := by
  by_cases hg : size.inline = 0 ∨ size.block = 0
  · left
    rw [Exclusions.exclude, if_pos hg] at he
    injection he with he
    exact ⟨hg, he.symm⟩
  · right
    rw [Exclusions.exclude, if_neg hg] at he
    refine ⟨fun h => hg (Or.inl h), fun h => hg (Or.inr h), ?_⟩
    rcases hsp : ex.split side size with _ | exs
    · rw [hsp] at he
      cases he
    · rw [Exclusions.split] at hsp
      rcases hgw : SplayMap.get_with_mut (split_cmp size.block) ex.bands with
        ⟨o, m'⟩
      rw [hgw] at hsp
      cases o with
      | none => cases hsp
      | some q =>
        have hq := get_with_mut_some (split_cmp size.block) ex.bands
          (show (SplayMap.get_with_mut (split_cmp size.block) ex.bands).1 =
            some q by rw [hgw])
        exact ⟨q, hq.1, (split_cmp_eq_iff _ q).mp hq.2⟩

/-- A successful `exclude` preserves the band-partition invariant. -/
theorem exclude_bandsOk {ex ex' : Exclusions} {side : Side} {size : Size}
    (hok : bandsOk ex.bands.root.toList)
    (he : ex.exclude side size = some ex') :
    bandsOk ex'.bands.root.toList := by
  rcases exclude_some_cases he with ⟨_, rfl⟩ | ⟨hi, hb, hmem⟩
  · exact hok
  · obtain ⟨ex'', P, S, he2, hps, hch', hlp, hle, hSne, htl', hinl⟩ :=
      exclude_model ex side size hok.1 hmem hi hb
    have hee : ex'' = ex' := by
      rw [he2] at he
      injection he
    subst hee
    have hskel : ((propRef side size.inline P.reverse).reverse ++ S).map
        keyLen = (P ++ S).map keyLen := by
      simp only [List.map_append, List.map_reverse, propRef_keyLen,
        List.reverse_reverse]
    refine ⟨?_, ?_, ?_⟩
    · rw [htl']
      exact chain_of_keyLen hskel.symm hch'
    · rw [htl']
      intro hcontra
      exact hSne (List.append_eq_nil.mp hcontra).2
    · rw [htl', lastEnd_of_keyLen hskel, hle, hok.2.2]

/-- A successful `exclude` only ever increases the recorded intrusion
magnitude on the excluded side: whatever position one looks at, the band
covering it afterwards intrudes at least as much as the band covering it
before. -/
theorem exclude_monotone {ex ex' : Exclusions} {side : Side} {size : Size}
    (hok : bandsOk ex.bands.root.toList)
    (he : ex.exclude side size = some ex') :
    ∀ x b0 b1, bandAt ex.bands.root.toList x = some b0 →
      bandAt ex'.bands.root.toList x = some b1 →
      -(b0.get side) ≤ -(b1.get side) := by
  rcases exclude_some_cases he with ⟨_, rfl⟩ | ⟨hi, hb, hmem⟩
  · intro x b0 b1 h0 h1
    rw [h0] at h1
    injection h1 with h1
    subst h1
    exact le_refl _
  · obtain ⟨ex'', P, S, he2, hps, hch', hlp, hle, hSne, htl', hinl⟩ :=
      exclude_model ex side size hok.1 hmem hi hb
    have hee : ex'' = ex' := by
      rw [he2] at he
      injection he
    subst hee
    intro x b0 b1 h0 h1
    obtain ⟨k0, h0mem, h0cov⟩ := bandAt_mem h0
    obtain ⟨k1, h1mem, h1cov⟩ := bandAt_mem h1
    rw [htl'] at h1mem
    -- every band of the new list covering x is, up to the possible
    -- intrusion overwrite, a `splitRef` band covering x
    have hkey : ∃ p ∈ P ++ S, p.1 ≤ x ∧ x < p.1 + p.2.length ∧
        (b1 = p.2 ∨
          (b1 = p.2.set side (-size.inline) ∧
            -(p.2.get side) ≤ size.inline)) := by
      rcases List.mem_append.mp h1mem with hrev | hS
      · obtain ⟨p, hpP, hk1, hlen1, hval⟩ :=
          propRef_mem side size.inline (List.mem_reverse.mp hrev)
        have hk1' : k1 = p.1 := hk1
        have hlen1' : b1.length = p.2.length := hlen1
        refine ⟨p, List.mem_append_left _ (List.mem_reverse.mp hpP),
          ?_, ?_, hval⟩
        · omega
        · omega
      · exact ⟨(k1, b1), List.mem_append_right _ hS, h1cov.1, h1cov.2,
          Or.inl rfl⟩
    obtain ⟨p, hpPS, hpc1, hpc2, hval⟩ := hkey
    rw [← hps] at hpPS
    obtain ⟨r, hrmem, hrl, hrr, hri1, hri2⟩ := splitRef_mem hpPS
    have hrcov : r.1 ≤ x ∧ x < r.1 + r.2.length := by omega
    have hr0 : r = (k0, b0) :=
      cover_unique hok.1 hrmem h0mem hrcov (by simpa using h0cov)
    have hget : p.2.get side = b0.get side := by
      rw [get_eq_of_fields hrl hrr side, hr0]
    rcases hval with hval | ⟨hval, hmag⟩
    · rw [hval, hget]
    · rw [hval, get_set_same]
      rw [hget] at hmag
      omega

/-- A client call against an `Exclusions` value: a placement query or an
exclusion. -/
inductive ExOp where
  | pl : Side → Size → ExOp
  | exc : Side → Size → ExOp

/-- Run one call; a failed (fatal) exclusion leaves the state unchanged —
the Rust process would abort there and no later state would exist at
all. -/
def runOp (ex : Exclusions) : ExOp → Exclusions
  | .pl side size => (ex.place side size).2
  | .exc side size =>
    match ex.exclude side size with
    | some ex' => ex'
    | none => ex

/-- Run a call sequence from a starting state. -/
def runOps (ex : Exclusions) (ops : List ExOp) : Exclusions :=
  ops.foldl runOp ex

theorem new_bandsOk (inline_size : Int) :
    bandsOk (Exclusions.new inline_size).bands.root.toList := by
  show bandsOk [((0 : Int), Band.new 0 0 MAX_AU)]
  decide

/-- Every state reachable from `new` by place/exclude calls satisfies the
band-partition invariant. -/
theorem runOps_bandsOk (inline_size : Int) (ops : List ExOp) :
    bandsOk (runOps (Exclusions.new inline_size) ops).bands.root.toList := by
  suffices h : ∀ (ops : List ExOp) (ex : Exclusions),
      bandsOk ex.bands.root.toList →
      bandsOk (runOps ex ops).bands.root.toList from
    h ops _ (new_bandsOk inline_size)
  intro ops
  induction ops with
  | nil => intro ex h; exact h
  | cons op ops ih =>
    intro ex h
    simp only [runOps, List.foldl_cons]
    apply ih
    cases op with
    | pl side size =>
      show bandsOk (runOp ex (ExOp.pl side size)).bands.root.toList
      rw [runOp, (place_preserves ex side size).1]
      exact h
    | exc side size =>
      show bandsOk (runOp ex (ExOp.exc side size)).bands.root.toList
      rw [runOp]
      rcases hx : ex.exclude side size with _ | ex'
      · exact h
      · exact exclude_bandsOk h hx

instance MonoOn.dec {K V : Type} [LinearOrder K] (c : K → V → Ordering)
    (l : List (K × V)) : Decidable (MonoOn c l) :=
  inferInstanceAs (Decidable (∀ p ∈ l, ∀ q ∈ l,
    p.1 < q.1 → rank (c p.1 p.2) ≤ rank (c q.1 q.2)))

instance sortedKV.dec {K V : Type} [LinearOrder K] (l : List (K × V)) :
    Decidable (sortedKV l) :=
  inferInstanceAs (Decidable (l.Pairwise (fun p q : K × V => p.1 < q.1)))

/-- A concrete invariant-satisfying state on which `place`'s answer is
shape-dependent: the splay tree's root is the terminal band, with the
(eligible) first band in its left subtree. -/
def C1ex : Exclusions :=
  ⟨⟨.node (.node .nil (0, Band.new 0 0 100) .nil)
      (100, Band.new (-900) 0 (MAX_AU - 100)) .nil, 2⟩, 1000⟩

/-- The state produced by `exclude(Left, {inline:5, block:100})` from
`new(1000)`. -/
def C3ex : Exclusions :=
  ⟨⟨.node .nil (0, Band.new (-5) 0 100)
      (.node .nil (100, Band.new 0 0 2147483547) .nil), 2⟩, 1000⟩

/-- C1 is FALSE as stated: on the invariant-satisfying state `C1ex` the
band starting at `0` is eligible for `size.inline = 950` (available width
`1000 ≥ 950`) and starts lowest, yet `place(Left, {950, 0})` returns
`block = 100` — the terminal root answers `Equal` and the read-only
search never descends to the lower eligible band.  The result depends on
the tree shape, not only on the band contents. -/
theorem claim_C1_counterexample :
    bandsOk C1ex.bands.root.toList ∧
    ((0 : Int), Band.new 0 0 100) ∈ C1ex.bands.root.toList ∧
    (950 : Int) ≤ (Band.new 0 0 100).available_size C1ex.inline_size ∧
    (0 : Int) < 100 ∧
    (C1ex.place .Left ⟨950, 0⟩).1 = some ⟨900, 100⟩ := by
  decide

/-- C1 (amended): under the band-partition invariant AND a monotone
eligibility profile (`compare_inline_size` non-decreasing in rank along
the bands — once a band is wide enough, so is every later band),
`place(side, size)` returns exactly the lowest-starting band whose
available width (`inline_size + left + right`) fits `size.inline`, the
open-ended band counting as always eligible, with inline coordinate
`-left` for `Left` and `inline_size + right - size.inline` for
`Right`. -/
theorem claim_C1 (ex : Exclusions) (side : Side) (size : Size)
    (hok : bandsOk ex.bands.root.toList)
    (hm : MonoOn (fun k b => compare_inline_size k b size ex.inline_size)
      ex.bands.root.toList) :
    ∃ k b, ((k, b) : Int × Band) ∈ ex.bands.root.toList ∧
      (ex.place side size).1 = some
        { inline := match side with
            | Side.Left => -b.left
            | Side.Right => ex.inline_size + b.right - size.inline
          block := k } ∧
      (size.inline ≤ b.available_size ex.inline_size ∨
        k + b.length = MAX_AU) ∧
      (∀ p ∈ ex.bands.root.toList, p.1 < k →
        ¬ size.inline ≤ p.2.available_size ex.inline_size) :=
  place_model ex side size hok hm

/-- Witness: on `new(1000)` the only band is the open-ended one starting
at `0`; `place(Left, {950, 3})` places there. -/
theorem claim_C1_witness :
    ((Exclusions.new 1000).place .Left ⟨950, 3⟩).1 = some ⟨0, 0⟩ := by
  obtain ⟨k, b, hmem, heq, _, _⟩ :=
    claim_C1 (Exclusions.new 1000) .Left ⟨950, 3⟩ (by decide) (by decide)
  have hm : ((k, b) : Int × Band) ∈
      [((0 : Int), Band.new 0 0 MAX_AU)] := hmem
  have := List.mem_singleton.mp hm
  injection this with h1 h2
  subst h1
  subst h2
  exact heq

/-- C2 is FALSE as stated: `exclude(Left, {inline:5, block:100})` on
`new(1000)` leaves the band STARTING at `block = 100` untouched
(intrusion still `0 < 5`) and instead updates the band at `0`, which
precedes `size.block` — the propagation walks backward from `size.block`,
not forward from it. -/
theorem claim_C2_counterexample :
    (Exclusions.exclude (Exclusions.new 1000) .Left ⟨5, 100⟩).map
        (fun e => e.bands.root.toList) =
      some [((0 : Int), Band.new (-5) 0 100),
        (100, Band.new 0 0 2147483547)] ∧
    (Band.new 0 0 2147483547).get .Left = 0 ∧
    -((Band.new (-5) 0 100).get .Left) = 5 ∧ (0 : Int) < 100 := by
  decide

/-- C2 (amended): a non-degenerate `exclude(side, size)` call on a chain
state splits the containing band at `size.block` and then propagates
BACKWARD from `size.block`: writing the split list as `P ++ S` with `P`
the bands ending at `size.block`, the suffix `S` is untouched while the
reversed prefix is walked latest-band first, each band's `side` intrusion
being overwritten with `size.inline` while its current magnitude is at
most `size.inline`, stopping at the first strictly larger one. -/
theorem claim_C2 (ex : Exclusions) (side : Side) (size : Size)
    (hch : bandsChain 0 ex.bands.root.toList)
    (hmem : ∃ p ∈ ex.bands.root.toList,
      p.1 ≤ size.block ∧ size.block < p.1 + p.2.length)
    (hi : size.inline ≠ 0) (hb : size.block ≠ 0) :
    ∃ ex' P S, ex.exclude side size = some ex' ∧
      splitRef size.block ex.bands.root.toList = P ++ S ∧
      bandsChain 0 (P ++ S) ∧
      lastEnd 0 P = size.block ∧
      lastEnd 0 (P ++ S) = lastEnd 0 ex.bands.root.toList ∧
      S ≠ [] ∧
      ex'.bands.root.toList =
        (propRef side size.inline P.reverse).reverse ++ S ∧
      ex'.inline_size = ex.inline_size :=
  exclude_model ex side size hch hmem hi hb

/-- Witness: the amended C2 applies to `exclude(Left, {5,100})` on
`new(1000)` and in particular shows the call succeeds. -/
theorem claim_C2_witness :
    ((Exclusions.new 1000).exclude .Left ⟨5, 100⟩).isSome = true := by
  obtain ⟨ex', P, S, he, _⟩ :=
    claim_C2 (Exclusions.new 1000) .Left ⟨5, 100⟩ (by decide) (by decide)
      (by decide) (by decide)
  rw [he]
  rfl

/-- C3: every state reachable from `new(inline_size)` by place/exclude
calls satisfies the band-partition invariant (contiguous disjoint bands
covering `[0, MAX_AU)` from `0`, with exactly the last one open-ended —
`bandsOk` pins `lastEnd = MAX_AU`, which with contiguity forces a unique
open-ended band, see `bandsOk_one_terminal`); any `exclude` call from
such a state preserves the invariant; and the intrusion magnitude on the
excluded side never decreases: at every position, the covering band
after the call intrudes at least as much as the covering band before. -/
theorem claim_C3 (inline_size : Int) (ops : List ExOp) (side : Side)
    (size : Size) (ex' : Exclusions)
    (hex : (runOps (Exclusions.new inline_size) ops).exclude side size =
      some ex') :
    bandsOk (runOps (Exclusions.new inline_size) ops).bands.root.toList ∧
    bandsOk ex'.bands.root.toList ∧
    ∀ x b0 b1,
      bandAt (runOps (Exclusions.new inline_size) ops).bands.root.toList x =
        some b0 →
      bandAt ex'.bands.root.toList x = some b1 →
      -(b0.get side) ≤ -(b1.get side) := by
  have hok := runOps_bandsOk inline_size ops
  exact ⟨hok, exclude_bandsOk hok hex, exclude_monotone hok hex⟩

/-- Witness: the empty call sequence followed by
`exclude(Left, {5,100})`, checked at position `50`. -/
theorem claim_C3_witness :
    bandsOk (runOps (Exclusions.new 1000) []).bands.root.toList ∧
    bandsOk C3ex.bands.root.toList ∧
    -((Band.new 0 0 MAX_AU).get .Left) ≤
      -((Band.new (-5) 0 100).get .Left) := by
  obtain ⟨h1, h2, h3⟩ := claim_C3 1000 [] .Left ⟨5, 100⟩ C3ex (by decide)
  exact ⟨h1, h2, h3 50 _ _ (by decide) (by decide)⟩

/-- C4 is FALSE as stated: `exclude(Left, Size{inline:200, block:0})` is
a NO-OP (the zero-block guard fires), so after a second exclusion that
does end a band at block `100` — here `exclude(Left, {1, 100})` — the
placement `place(Left, {100, 0})` (so `b = 0 ∈ [0,100)`) returns
`inline = 1`, not `200`. -/
theorem claim_C4_counterexample :
    (Exclusions.new 1000).exclude .Left ⟨200, 0⟩ =
      some (Exclusions.new 1000) ∧
    (((Exclusions.new 1000).exclude .Left ⟨200, 0⟩).bind
        (fun e1 => e1.exclude .Left ⟨1, 100⟩)).map
        (fun e2 => (e2.place .Left ⟨100, 0⟩).1) =
      some (some ⟨1, 0⟩) ∧
    (1 : Int) ≠ 200 := by
  decide

/-- C4 (amended): to make the 200-deep exclusion take effect over blocks
`[0, 100)` its block extent must be non-zero: after
`exclude(Left, Size{inline:200, block:100})` on `new(1000)`, every
`place(Left, Size{inline:100, block:b})` — for EVERY `b`, since `place`
never reads `size.block` — returns inline coordinate `200` (at block
`0`). -/
theorem claim_C4 (b : Int) :
    ((Exclusions.new 1000).exclude .Left ⟨200, 100⟩).map
        (fun e2 => (e2.place .Left ⟨100, b⟩).1) =
      some (some ⟨200, 0⟩) := by
  rfl

/-- C7 is FALSE as stated: an ELIGIBLE non-terminal band answers `Less`
(here: band `[0,100)` with available width `1000 ≥ 50`), whereas the
claim reserves `Less` for ineligible non-terminal bands and requires
`Equal` on eligible ones. -/
theorem claim_C7_counterexample :
    compare_inline_size 0 (Band.new 0 0 100) ⟨50, 0⟩ 1000 = .lt ∧
    (50 : Int) ≤ (Band.new 0 0 100).available_size 1000 ∧
    (0 : Int) + (Band.new 0 0 100).length ≠ MAX_AU ∧
    Ordering.lt ≠ Ordering.eq := by
  decide

/-- C7 (amended): the driving predicate returns `Less` exactly on an
eligible band (the requested inline size fits its available width),
`Equal` exactly on an ineligible TERMINAL band, and `Greater` exactly on
an ineligible non-terminal band. -/
theorem claim_C7 (k : Int) (b : Band) (size : Size) (inline_size : Int) :
    compare_inline_size k b size inline_size =
      if size.inline ≤ b.available_size inline_size then .lt
      else if k + b.length = MAX_AU then .eq
      else .gt := by
  rcases hc : compare size.inline (b.available_size inline_size) with _ | _ | _
  · rw [compare_lt_iff_lt] at hc
    simp only [compare_inline_size, compare_lt_iff_lt.mpr hc]
    rw [if_pos (le_of_lt hc)]
  · rw [compare_eq_iff_eq] at hc
    simp only [compare_inline_size, compare_eq_iff_eq.mpr hc]
    rw [if_pos (le_of_eq hc)]
  · rw [compare_gt_iff_gt] at hc
    simp only [compare_inline_size, compare_gt_iff_gt.mpr hc]
    rw [if_neg (show ¬ size.inline ≤ b.available_size inline_size by omega)]

/-- C8: under the band-partition invariant `place` never reaches either
fatal branch: the lower-bound search finds a band (the open-ended band
never answers `Greater` and has the greatest key) and the follow-up
exact lookup of its start succeeds, so `place` returns a point. -/
theorem claim_C8 (ex : Exclusions) (side : Side) (size : Size)
    (hok : bandsOk ex.bands.root.toList) :
    ∃ pt, (ex.place side size).1 = some pt :=
  place_some ex side size hok

/-- Witness: `place(Left, {950, 0})` on `new(1000)` returns a point. -/
theorem claim_C8_witness :
    ((Exclusions.new 1000).place .Left ⟨950, 0⟩).1.isSome = true := by
  obtain ⟨pt, hpt⟩ :=
    claim_C8 (Exclusions.new 1000) .Left ⟨950, 0⟩ (by decide)
  rw [hpt]
  rfl

/-- C9: `place` is a pure query on the logical state: on every input the
band list (starts, intrusions, lengths, in order), the size field and
the stored `inline_size` are unchanged, even though the splay tree is
restructured. -/
theorem claim_C9 (ex : Exclusions) (side : Side) (size : Size) :
    (ex.place side size).2.bands.root.toList = ex.bands.root.toList ∧
    (ex.place side size).2.bands.size = ex.bands.size ∧
    (ex.place side size).2.inline_size = ex.inline_size :=
  place_preserves ex side size

/-- C10: `place` never depends on the block component of the requested
size: two requests agreeing on `inline` get literally the same answer
(and the same resulting state). -/
theorem claim_C10 (ex : Exclusions) (side : Side) (s1 s2 : Size)
    (h : s1.inline = s2.inline) :
    ex.place side s1 = ex.place side s2 := by
  obtain ⟨i1, b1⟩ := s1
  obtain ⟨i2, b2⟩ := s2
  have hi : i1 = i2 := h
  subst hi
  rfl

/-- Witness: same inline, different blocks, same placement. -/
theorem claim_C10_witness :
    (Exclusions.new 1000).place .Left ⟨5, 1⟩ =
      (Exclusions.new 1000).place .Left ⟨5, 2⟩ :=
  claim_C10 (Exclusions.new 1000) .Left ⟨5, 1⟩ ⟨5, 2⟩ rfl

end Exclusions

theorem lookupL_none_iff {K V : Type} [LinearOrder K] {l : List (K × V)}
    (hs : sortedKV l) (key : K) :
    lookupL key l = none ↔ key ∉ keysOf l := by
  constructor
  · intro h hmem
    obtain ⟨p, hp, hk⟩ := mem_keysOf_iff.mp hmem
    rw [lookupL_of_sorted_mem hs hp hk] at h
    cases h
  · exact lookupL_of_not_mem

/-- C5: `insert` on a key already bound (by `w`) returns `some w` and
leaves the size field unchanged; on an absent key it returns `none` and
increments the size by one.  `remove` on a bound key returns its value
and decrements the size by one; on an absent key it returns `none` with
the size unchanged.  (Presence is read off the reference lookup on the
sorted in-order contents.) -/
theorem claim_C5 {K V : Type} [LinearOrder K] (m : SplayMap K V) (key : K)
    (v : V) (hs : sortedKV m.root.toList) :
    ((∀ w, lookupL key m.root.toList = some w →
        (m.insert key v).1 = some w ∧ (m.insert key v).2.size = m.size) ∧
      (lookupL key m.root.toList = none →
        (m.insert key v).1 = none ∧
        (m.insert key v).2.size = m.size + 1)) ∧
    ((∀ w, lookupL key m.root.toList = some w →
        (m.remove key).1 = some w ∧ (m.remove key).2.size = m.size - 1) ∧
      (lookupL key m.root.toList = none →
        (m.remove key).1 = none ∧ (m.remove key).2.size = m.size)) := by
  have hi := insert_model m key v hs
  have hr := remove_model m key hs
  refine ⟨⟨?_, ?_⟩, ?_, ?_⟩
  · intro w hw
    have hmem : key ∈ keysOf m.root.toList := by
      by_contra hc
      rw [(lookupL_none_iff hs key).mpr hc] at hw
      cases hw
    exact ⟨by rw [hi.1, hw], by rw [hi.2.2, if_pos hmem]⟩
  · intro hw
    have hmem : key ∉ keysOf m.root.toList := (lookupL_none_iff hs key).mp hw
    exact ⟨by rw [hi.1, hw], by rw [hi.2.2, if_neg hmem]⟩
  · intro w hw
    have hmem : key ∈ keysOf m.root.toList := by
      by_contra hc
      rw [(lookupL_none_iff hs key).mpr hc] at hw
      cases hw
    exact ⟨by rw [hr.1, hw], by rw [hr.2.2, if_pos hmem]⟩
  · intro hw
    have hmem : key ∉ keysOf m.root.toList := (lookupL_none_iff hs key).mp hw
    exact ⟨by rw [hr.1, hw], by rw [hr.2.2, if_neg hmem]⟩

/-- A one-binding concrete map for the C5 witness. -/
def C5m : SplayMap Int Int := ⟨.node .nil (3, 7) .nil, 1⟩

/-- Witness: on a singleton map, inserting over the bound key `3` returns
the old value `7` with size still `1`, and removing it returns `7` with
size `0`. -/
theorem claim_C5_witness :
    ((C5m.insert 3 9).1 = some 7 ∧ (C5m.insert 3 9).2.size = 1) ∧
    ((C5m.remove 3).1 = some 7 ∧ (C5m.remove 3).2.size = 0) := by
  have h := claim_C5 C5m 3 9 (by decide)
  exact ⟨h.1.1 7 (by decide), h.2.1 7 (by decide)⟩

/-- C6: for every operation sequence, `get` returns the reference model's
most recent binding; the reference model is strictly key-sorted, so
draining the consuming iterator forward yields exactly the model (in
ascending key order), draining backward yields its reverse (descending);
any interleaving of `next` and `next_back` yields pairs which, together
with the pairs still inside the iterator, are a permutation of the model
(no duplicates, no omissions); and the reported remaining count always
equals the number of pairs still inside. -/
theorem claim_C6 {K V : Type} [LinearOrder K] (ops : List (MapOp K V))
    (key : K) (fs : List Bool) :
    ((buildMap ops).get key).1 = lookupL key (refModel ops) ∧
    sortedKV (refModel ops) ∧
    (runIter (SplayMap.into_iter (buildMap ops))
      (List.replicate (refModel ops).length false)).1 = refModel ops ∧
    (runIter (SplayMap.into_iter (buildMap ops))
      (List.replicate (refModel ops).length true)).1 =
      (refModel ops).reverse ∧
    ((runIter (SplayMap.into_iter (buildMap ops)) fs).1 ++
      (runIter (SplayMap.into_iter (buildMap ops)) fs).2.cur.toList).Perm
      (refModel ops) ∧
    (runIter (SplayMap.into_iter (buildMap ops)) fs).2.remaining =
      (runIter (SplayMap.into_iter (buildMap ops)) fs).2.cur.toList.length
    := by
  obtain ⟨htl, hsort, hsize⟩ := buildMap_model ops
  have hget := (get_model (buildMap ops) key (by rw [htl]; exact hsort)).1
  have hcur : (SplayMap.into_iter (buildMap ops)).cur =
    (buildMap ops).root := rfl
  refine ⟨?_, hsort, ?_, ?_, ?_, ?_⟩
  · rw [hget, htl]
  · have := runIter_forward (refModel ops).length
      (SplayMap.into_iter (buildMap ops)) (by rw [hcur, htl])
    rw [this, hcur, htl]
  · have := runIter_backward (refModel ops).length
      (SplayMap.into_iter (buildMap ops)) (by rw [hcur, htl])
    rw [this, hcur, htl]
  · have := runIter_perm fs (SplayMap.into_iter (buildMap ops))
    rw [hcur, htl] at this
    exact this
  · exact (runIter_count fs (SplayMap.into_iter (buildMap ops))
      (by show (buildMap ops).size = (buildMap ops).root.toList.length
          rw [hsize, htl])).1

end Buoyancy
